import Mathlib

/-!
# numericode: fixed-radix codes in a 32-bit unsigned integer

A shallow embedding of `numcode.go` (package `numericode`) and of
`nctype/numericode.go` (package `nctype`), followed by the properties of the
encoder and decoder.

Conventions of the embedding.

* A Go `string` or `[]byte` is a `List Byte`, a byte being a `Fin 256`.
* A `uint32` is a `Nat`, reduced `% 2 ^ 32` wherever the Go code can wrap.
* A Go `int` is an `Int` (`MaxChars`, the result of `strings.Index`).
* A run-time panic (index out of range) is the result `none`.
* A `for` loop over a counter that only grows towards a fixed bound is a
  structural recursion on the number of iterations that remain.
-/

set_option maxRecDepth 100000

namespace Numericode

/-- One byte of a Go string or byte slice. -/
abbrev Byte := Fin 256

/-- The bytes of an ASCII string literal. -/
def bytes (s : String) : List Byte :=
  s.toList.map (fun c => Fin.ofNat c.toNat)

/-- The constant `stdCharSet` of `numcode.go` (40 symbols, space first). -/
def stdCharSet : List Byte := bytes " ABCDEFGHIJKLMNOPQRSTUVWXYZ0123456789-_/"

/-- The largest `uint32`. -/
def maxUint32 : Nat := 4294967295

/-- Modelled from the spec: the table `powermap32`, whose Go file is not among
the sources. Section 4.1 of the specification: for each `L` from 10 to 64 the
successive powers `L^0, L^1, L^2, ...`, each kept only while it is at most
`2^32 - 1`. A key outside `10..64` is absent from the Go map, so that the lookup
yields the nil slice. -/
def powermap32 (L : Nat) : List Nat :=
  if 10 ≤ L ∧ L ≤ 64 then
    ((List.range 33).map (fun i => L ^ i)).takeWhile (fun p => decide (p ≤ maxUint32))
  else []

/-- The Go conversion `string(b)` of a byte `b`: the UTF-8 encoding of the code
point `b`, one byte below 128 and two bytes from 128 on. -/
def runeString (b : Byte) : List Byte :=
  if b.val < 128 then [b]
  else [Fin.ofNat (192 + b.val / 64), Fin.ofNat (128 + b.val % 64)]

/-- Whether the byte string `s` begins with `sub`. -/
def startsWith : List Byte → List Byte → Bool
  | _, [] => true
  | [], _ :: _ => false
  | c :: s, d :: sub => c == d && startsWith s sub

/-- The search of `strings.Index` from offset `i` on. -/
def indexFrom (sub : List Byte) : List Byte → Nat → Int
  | [], i => if sub = [] then (i : Int) else -1
  | c :: s, i => if startsWith (c :: s) sub then (i : Int) else indexFrom sub s (i + 1)

/-- Go's `strings.Index s sub`: the index of the first occurrence of `sub` in
`s`, or `-1`. -/
def stringsIndex (s sub : List Byte) : Int := indexFrom sub s 0

/-- The type `Encoding` of `numcode.go`. -/
structure Encoding where
  charset : List Byte
  deriving DecidableEq, Repr

/-- The constructor `NewEncoding`: a charset with fewer than 10 or more than 64
bytes is dropped silently and the zero value is returned. -/
def NewEncoding (charset : List Byte) : Encoding :=
  if charset.length < 10 ∨ charset.length > 64 then { charset := [] }
  else { charset := charset }

/-- The package variable `StdEncoding`. -/
def StdEncoding : Encoding := NewEncoding stdCharSet

/-- The method `Encoding.MaxChars`. -/
def Encoding.MaxChars (e : Encoding) : Int :=
  if e.charset.length < 10 ∨ e.charset.length > 64 then 0
  else ((powermap32 e.charset.length).length : Int) - 1

/-- Go's `binary.LittleEndian.PutUint32 dst v`: panics on fewer than four
bytes, otherwise overwrites the first four. -/
def putUint32 (dst : List Byte) (v : Nat) : Option (List Byte) :=
  if dst.length < 4 then none
  else some ([Fin.ofNat v, Fin.ofNat (v / 2 ^ 8), Fin.ofNat (v / 2 ^ 16),
              Fin.ofNat (v / 2 ^ 24)] ++ dst.drop 4)

/-- Go's `binary.LittleEndian.Uint32 b`. -/
def getUint32 (b : List Byte) : Option Nat :=
  match b with
  | b0 :: b1 :: b2 :: b3 :: _ =>
    some (b0.val + b1.val * 2 ^ 8 + b2.val * 2 ^ 16 + b3.val * 2 ^ 24)
  | _ => none

/-- The loop of `Encoding.Encode` from index `i` with running total `tot`.
`none` is a panic (table index out of range), `some none` the early `return` on
a byte that is not found, `some (some t)` the total when the loop ends. -/
def encodeLoop (charset : List Byte) : List Byte → Nat → Nat → Option (Option Nat)
  | [], _, tot => some (some tot)
  | b :: rest, i, tot =>
    let idx := stringsIndex charset (runeString b)
    if idx = -1 then some none
    else
      match (powermap32 charset.length)[i]? with
      | none => none
      | some p =>
        encodeLoop charset rest (i + 1)
          ((tot + ((idx.toNat % 256) * p) % 2 ^ 32) % 2 ^ 32)

/-- The method `Encoding.Encode dst src`; the result is the content of `dst`
afterwards, `none` when the call panics. -/
def Encoding.Encode (e : Encoding) (dst src : List Byte) : Option (List Byte) :=
  if (src.length : Int) > e.MaxChars then some dst
  else
    match encodeLoop e.charset src 0 0 with
    | none => none
    | some none => some dst
    | some (some tot) => putUint32 dst tot

/-- The method `Encoding.EncodeToUint32`. -/
def Encoding.EncodeToUint32 (e : Encoding) (src : List Byte) : Option Nat :=
  match e.Encode [0, 0, 0, 0] src with
  | none => none
  | some dst => getUint32 dst

/-- The loop of `Encoding.Decode` with `fuel` iterations left before `counter`
reaches `MaxChars()`. `math.Mod (float64 num) (float64 l)` is exact on 32-bit
operands, hence `num % l`; `uint8 x` is the reduction modulo 256. The body runs
only when `MaxChars()` is positive, that is with `l` in `10..64`, so that the
division by `l` never sees zero. -/
def decodeLoop (charset : List Byte) (l : Nat) (zerofill : Bool) :
    Nat → Nat → Nat → List Byte → Option (List Byte)
  | 0, _, _, dst => some dst
  | fuel + 1, counter, num, dst =>
    if num > 0 then
      match charset[(num % l) % 256]? with
      | none => none
      | some ch =>
        if counter < dst.length then
          decodeLoop charset l zerofill fuel (counter + 1) (num / l) (dst.set counter ch)
        else none
    else if zerofill then
      match charset[0]? with
      | none => none
      | some ch =>
        if counter < dst.length then
          decodeLoop charset l zerofill fuel (counter + 1) num (dst.set counter ch)
        else none
    else some dst

/-- The method `Encoding.Decode dst i zerofill`; the result is the content of
`dst` afterwards, `none` when the call panics. -/
def Encoding.Decode (e : Encoding) (dst : List Byte) (i : Nat) (zerofill : Bool) :
    Option (List Byte) :=
  decodeLoop e.charset (e.charset.length % 2 ^ 32) zerofill e.MaxChars.toNat 0 i dst

/-- The number of characters a charset of length `L` allows, as a natural
number: the highest index of `powermap32 L`. -/
def maxCharsOf (L : Nat) : Nat := (powermap32 L).length - 1

/-- The digit that `Encode` and `FromString` take for the byte `b`: the result
of `strings.Index charset (string b)` as an unsigned number. -/
def digitOf (cs : List Byte) (b : Byte) : Nat := (stringsIndex cs (runeString b)).toNat

/-- The positional value of a digit sequence in base `L`, first digit least
significant: the sum of `ds[i] * L ^ i`. -/
def positional (L : Nat) (ds : List Nat) : Nat :=
  ∑ i ∈ Finset.range ds.length, ds.getD i 0 * L ^ i

/-- The four bytes of `v` in little-endian order. -/
def leBytes (v : Nat) : List Nat := [v % 256, v / 2 ^ 8 % 256, v / 2 ^ 16 % 256, v / 2 ^ 24 % 256]

/-- The number of positions `Decode` writes for the code `c` under a charset of
length `L` with bound `mc`: all `mc` of them with `zerofill`, otherwise the
base-`L` digits of `c` (none for `c = 0`), at most `mc`. -/
def writtenCount (L mc c : Nat) (zerofill : Bool) : Nat :=
  if zerofill then mc else min mc (Nat.digits L c).length

/-- The symbols of the first `n` base-`L` digits of `c`, least significant
first: `charset[(c / L ^ k) % L]` for `k < n`. -/
def digitSymbols (cs : List Byte) (c n : Nat) : List Byte :=
  (List.range n).map (fun k => cs.getD (c / cs.length ^ k % cs.length) 0)

/-- The string `s` without its whole trailing run of the zero symbol
`charset[0]`. -/
def stripZero (cs s : List Byte) : List Byte :=
  s.rdropWhile (fun b => decide (some b = cs[0]?))

/-- The string `s` padded on the right with the zero symbol `charset[0]` up to
the length `n`. -/
def padZero (cs s : List Byte) (n : Nat) : List Byte :=
  s ++ List.replicate (n - s.length) (cs.getD 0 0)

/-- The Go string `"0123456789é"`: twelve bytes, the last two the UTF-8
encoding `0xC3 0xA9` of `é`. -/
def accentCharSet : List Byte := bytes "0123456789" ++ [0xC3, 0xA9]

/-- A charset all of whose bytes are ASCII (below 128). -/
def IsAscii (cs : List Byte) : Prop := ∀ c ∈ cs, c.val < 128

instance (cs : List Byte) : Decidable (IsAscii cs) := by
  unfold IsAscii; infer_instance

/-! ### Package `nctype`

The package variable `useCharSet` is the state of the package; every function
that reads it takes its current value as first argument. -/

namespace nctype

/-- The Go type `Numericode`, a slice of bytes. -/
abbrev Numericode := List Byte

/-- The constant `DefaultCharSet`. -/
def DefaultCharSet : List Byte := bytes " ABCDEFGHIJKLMNOPQRSTUVWXYZ0123456789-_/"

/-- The errors that the package builds with `fmt.Errorf`: the length error of
`FromString` with the length it prints, its character error with the position
it prints, and the error of `ToUint32`, "truncation will occur". -/
inductive Error where
  | invalidLength (n : Nat)
  | invalidCharacter (i : Nat)
  | truncation
  deriving DecidableEq, Repr

deriving instance DecidableEq for Except

/-- The function `MaxChars` of package `nctype`. -/
def MaxChars (useCharSet : List Byte) : Int :=
  ((powermap32 useCharSet.length).length : Int) - 1

/-- The loop of `FromString` from index `i`, `n` being the slice built so far;
`uint8 idx` is the reduction modulo 256. -/
def fromStringLoop (useCharSet : List Byte) :
    List Byte → Nat → Numericode → Except Error Numericode
  | [], _, n => .ok n
  | b :: rest, i, n =>
    let idx := stringsIndex useCharSet (runeString b)
    if idx = -1 then .error (.invalidCharacter i)
    else fromStringLoop useCharSet rest (i + 1) (n ++ [Fin.ofNat idx.toNat])

/-- The function `FromString`. -/
def FromString (useCharSet : List Byte) (s : List Byte) : Except Error Numericode :=
  if (s.length : Int) > MaxChars useCharSet then .error (.invalidLength s.length)
  else fromStringLoop useCharSet s 0 []

/-- The function `OverideCharSet s`: the value of `useCharSet` after the call,
`useCharSet` being its value before. -/
def OverideCharSet (useCharSet s : List Byte) : List Byte :=
  if s.length < 10 ∨ s.length > 64 then useCharSet else s

/-- The values that the package variable `useCharSet` can take: its initial
value `DefaultCharSet`, and what a call of `OverideCharSet` leaves. -/
inductive Reachable : List Byte → Prop
  | initial : Reachable DefaultCharSet
  | overide (useCharSet s : List Byte) :
      Reachable useCharSet → Reachable (OverideCharSet useCharSet s)

/-- The loop `for num > 0` of `FromUint32` with at most `fuel` iterations;
`none` when an iteration divides by `uint32 l = 0` or when the loop has not
ended within `fuel` iterations. `math.Mod` is exact on 32-bit operands, hence
`num % l`; `uint8 x` is the reduction modulo 256. -/
def fromUint32Loop (l : Nat) : Nat → Nat → Numericode → Option Numericode
  | 0, num, str => if num > 0 then none else some str
  | fuel + 1, num, str =>
    if num > 0 then
      if l % 2 ^ 32 = 0 then none
      else fromUint32Loop l fuel (num / (l % 2 ^ 32)) (str ++ [Fin.ofNat (num % l)])
    else some str

/-- The function `FromUint32`, whose error is always nil. A `uint32` is
exhausted by 32 divisions by a length of 2 or more, so that 32 iterations are
all the loop can make when it ends at all; `none` is a call that does not
return. -/
def FromUint32 (useCharSet : List Byte) (i : Nat) : Option (Except Error Numericode) :=
  match fromUint32Loop useCharSet.length 32 i [] with
  | none => none
  | some str => some (.ok str)

/-- The loop of `ToUint32` from index `i` with running total `tot`; `none` is
a panic (table index out of range). -/
def toUint32Loop (L : Nat) : List Byte → Nat → Nat → Option Nat
  | [], _, tot => some tot
  | b :: rest, i, tot =>
    match (powermap32 L)[i]? with
    | none => none
    | some p => toUint32Loop L rest (i + 1) ((tot + (b.val * p) % 2 ^ 32) % 2 ^ 32)

/-- The method `Numericode.ToUint32`; `none` is a panic, which `n[0]` raises on
the empty Numericode. -/
def ToUint32 (useCharSet : List Byte) (n : Numericode) : Option (Except Error Nat) :=
  if (n.length : Int) > MaxChars useCharSet then some (.error .truncation)
  else
    match n with
    | [] => none
    | b0 :: rest =>
      match toUint32Loop useCharSet.length rest 1 b0.val with
      | none => none
      | some tot => some (.ok tot)

/-- The method `Numericode.Value`: the value of `ToUint32`, its error dropped. -/
def Value (useCharSet : List Byte) (n : Numericode) : Option Nat :=
  match ToUint32 useCharSet n with
  | none => none
  | some (.ok val) => some val
  | some (.error _) => some 0

/-- The loop of `Numericode.String`, `str` being the string built so far;
`none` is a panic (charset index out of range). -/
def stringLoop (useCharSet : List Byte) : Numericode → List Byte → Option (List Byte)
  | [], str => some str
  | d :: rest, str =>
    match useCharSet[d.val]? with
    | none => none
    | some ch => stringLoop useCharSet rest (str ++ runeString ch)

/-- The method `Numericode.String`. -/
def String (useCharSet : List Byte) (n : Numericode) : Option (List Byte) :=
  stringLoop useCharSet n []

end nctype

/-- The charset of `ExampleEncoding_Decode`: the letters, then the digits. -/
def alnumCharSet : List Byte := bytes "ABCDEFGHIJKLMNOPQRSTUVWXYZ0123456789"

/-- The hexadecimal charset of the tests. -/
def hexCharSet : List Byte := bytes "0123456789ABCDEF"

end Numericode

/-! ## The power table -/

namespace Numericode

theorem powermap32_shape (L : Nat) (h1 : 10 ≤ L) (h2 : L ≤ 64) :
    powermap32 L = (List.range (maxCharsOf L + 1)).map (fun i => L ^ i)
      ∧ 1 ≤ maxCharsOf L
      ∧ L ^ maxCharsOf L ≤ maxUint32 ∧ maxUint32 < L ^ (maxCharsOf L + 1) := by
  interval_cases L <;> decide

theorem powermap32_length (L : Nat) (h1 : 10 ≤ L) (h2 : L ≤ 64) :
    (powermap32 L).length = maxCharsOf L + 1 := by
  have h := (powermap32_shape L h1 h2).1
  have h' := congrArg List.length h
  simpa using h'

theorem powermap32_get (L : Nat) (h1 : 10 ≤ L) (h2 : L ≤ 64) (i : Nat)
    (hi : i ≤ maxCharsOf L) : (powermap32 L)[i]? = some (L ^ i) := by
  rw [(powermap32_shape L h1 h2).1]
  rw [List.getElem?_map, List.getElem?_range (by omega)]
  rfl

/-! ## `strings.Index` on the one-rune strings `string(b)` -/

theorem startsWith_length : ∀ (s sub : List Byte), startsWith s sub = true →
    sub.length ≤ s.length
  | _, [], _ => by simp
  | [], _ :: _, h => by simp [startsWith] at h
  | c :: s, d :: sub, h => by
    simp only [startsWith, Bool.and_eq_true] at h
    have := startsWith_length s sub h.2
    simp only [List.length_cons]
    omega

theorem indexFrom_range (sub : List Byte) : ∀ (s : List Byte) (i : Nat),
    indexFrom sub s i = -1 ∨
      ((i : Int) ≤ indexFrom sub s i ∧
        indexFrom sub s i + sub.length ≤ (i : Int) + s.length)
  | [], i => by
    unfold indexFrom
    split
    · next h => right; subst h; simp
    · left; rfl
  | c :: s, i => by
    unfold indexFrom
    split
    · next h =>
      right
      have := startsWith_length _ _ h
      simp only [List.length_cons] at this ⊢
      omega
    · rcases indexFrom_range sub s (i + 1) with h | h
      · left; exact h
      · right
        simp only [List.length_cons]
        push_cast at h ⊢
        omega

theorem runeString_ne_nil (b : Byte) : runeString b ≠ [] := by
  unfold runeString; split <;> simp

/-- A successful lookup yields an index below the length of the charset. -/
theorem stringsIndex_lt (cs : List Byte) (b : Byte)
    (h : stringsIndex cs (runeString b) ≠ -1) :
    0 ≤ stringsIndex cs (runeString b) ∧
      (stringsIndex cs (runeString b)).toNat < cs.length := by
  have hlen : 0 < (runeString b).length := List.length_pos.mpr (runeString_ne_nil b)
  rcases indexFrom_range (runeString b) cs 0 with h' | h'
  · exact absurd h' h
  · unfold stringsIndex at *
    omega

theorem indexFrom_single (b : Byte) : ∀ (s : List Byte) (i : Nat),
    indexFrom [b] s i = if b ∈ s then ((i + s.indexOf b : Nat) : Int) else -1
  | [], i => by simp [indexFrom]
  | c :: s, i => by
    unfold indexFrom
    by_cases hcb : c = b
    · subst hcb
      simp [startsWith]
    · have hbc : b ≠ c := fun h => hcb h.symm
      have h1 : startsWith (c :: s) [b] = false := by simp [startsWith, hcb]
      rw [h1, indexFrom_single b s (i + 1)]
      simp only [Bool.false_eq_true, if_false, List.mem_cons, hbc, false_or]
      split
      · rw [List.indexOf_cons_ne _ hcb]
        congr 1
        omega
      · rfl

theorem indexFrom_high (x y : Byte) (hx : 128 ≤ x.val) : ∀ (s : List Byte) (i : Nat),
    IsAscii s → indexFrom [x, y] s i = -1
  | [], i, _ => by simp [indexFrom]
  | c :: s, i, hs => by
    unfold indexFrom
    have hc : c.val < 128 := hs c (List.mem_cons_self _ _)
    have hne : c ≠ x := by
      intro h; subst h; omega
    have h1 : startsWith (c :: s) [x, y] = false := by simp [startsWith, hne]
    rw [h1]
    simp only [Bool.false_eq_true, if_false]
    exact indexFrom_high x y hx s (i + 1) (fun d hd => hs d (List.mem_cons_of_mem _ hd))

/-- On an ASCII charset `strings.Index charset (string b)` is the first index of
the byte `b`, and `-1` when `b` does not occur. -/
theorem stringsIndex_ascii (cs : List Byte) (hcs : IsAscii cs) (b : Byte) :
    stringsIndex cs (runeString b) = if b ∈ cs then (cs.indexOf b : Int) else -1 := by
  unfold stringsIndex runeString
  by_cases hb : b.val < 128
  · rw [if_pos hb, indexFrom_single]
    simp
  · rw [if_neg hb]
    have hnot : b ∉ cs := fun h => hb (hcs b h)
    rw [if_neg hnot]
    apply indexFrom_high _ _ _ _ _ hcs
    have h1 : b.val < 256 := b.isLt
    have h2 : b.val / 64 < 4 := by omega
    show 128 ≤ (192 + b.val / 64) % 256
    omega

/-! ## `NewEncoding` and `MaxChars` -/

theorem NewEncoding_charset (cs : List Byte) (h1 : 10 ≤ cs.length) (h2 : cs.length ≤ 64) :
    (NewEncoding cs).charset = cs := by
  unfold NewEncoding
  rw [if_neg (by omega)]

theorem NewEncoding_charset_invalid (cs : List Byte) (h : cs.length < 10 ∨ 64 < cs.length) :
    (NewEncoding cs).charset = [] := by
  unfold NewEncoding
  rw [if_pos (by omega)]

theorem MaxChars_valid (cs : List Byte) (h1 : 10 ≤ cs.length) (h2 : cs.length ≤ 64) :
    (NewEncoding cs).MaxChars = (maxCharsOf cs.length : Int) := by
  unfold Encoding.MaxChars
  rw [NewEncoding_charset cs h1 h2, if_neg (by omega), powermap32_length _ h1 h2]
  push_cast
  omega

theorem MaxChars_invalid (cs : List Byte) (h : cs.length < 10 ∨ 64 < cs.length) :
    (NewEncoding cs).MaxChars = 0 := by
  unfold Encoding.MaxChars
  rw [NewEncoding_charset_invalid cs h]
  simp

/-! ## The accumulation of `Encode` -/

theorem positional_eq_ofDigits (L : Nat) : ∀ ds : List Nat,
    positional L ds = Nat.ofDigits L ds
  | [] => by simp [positional]
  | d :: ds => by
    have ih := positional_eq_ofDigits L ds
    unfold positional at ih ⊢
    rw [Nat.ofDigits_cons, ← ih, List.length_cons, Finset.sum_range_succ', Finset.mul_sum]
    simp only [List.getD_cons_succ, List.getD_cons_zero, pow_zero, mul_one, pow_succ]
    rw [add_comm]
    congr 1
    apply Finset.sum_congr rfl
    intro i _
    ring

theorem digitOf_lt (cs : List Byte) (b : Byte) (h : stringsIndex cs (runeString b) ≠ -1) :
    digitOf cs b < cs.length := (stringsIndex_lt cs b h).2

/-- The value of a digit sequence no longer than `MaxChars` fits in a `uint32`. -/
theorem ofDigits_le_maxUint32 (L : Nat) (h1 : 10 ≤ L) (h2 : L ≤ 64) (ds : List Nat)
    (hlen : ds.length ≤ maxCharsOf L) (hds : ∀ d ∈ ds, d < L) :
    Nat.ofDigits L ds ≤ maxUint32 := by
  have hlt := Nat.ofDigits_lt_base_pow_length (by omega : 1 < L) hds
  have hpow : L ^ ds.length ≤ L ^ maxCharsOf L := Nat.pow_le_pow_right (by omega) hlen
  have := (powermap32_shape L h1 h2).2.2.1
  omega

theorem encodeLoop_found (cs : List Byte) (h1 : 10 ≤ cs.length) (h2 : cs.length ≤ 64) :
    ∀ (src : List Byte) (i tot : Nat), tot < 2 ^ 32 →
      (∀ b ∈ src, stringsIndex cs (runeString b) ≠ -1) →
      i + src.length ≤ maxCharsOf cs.length + 1 →
      encodeLoop cs src i tot =
        some (some ((tot + cs.length ^ i * Nat.ofDigits cs.length (src.map (digitOf cs)))
          % 2 ^ 32))
  | [], i, tot, ht, _, _ => by
    simp only [encodeLoop, List.map_nil, Nat.ofDigits_nil, mul_zero, add_zero,
      Option.some.injEq]
    omega
  | b :: rest, i, tot, _, hf, hi => by
    have hb : stringsIndex cs (runeString b) ≠ -1 := hf b (List.mem_cons_self _ _)
    have hd : digitOf cs b < cs.length := digitOf_lt cs b hb
    simp only [List.length_cons] at hi
    unfold encodeLoop
    simp only [hb, if_false]
    rw [powermap32_get _ h1 h2 i (by omega)]
    simp only
    rw [encodeLoop_found cs h1 h2 rest (i + 1) _ (Nat.mod_lt _ (by norm_num))
      (fun c hc => hf c (List.mem_cons_of_mem _ hc)) (by omega)]
    have hmod : (stringsIndex cs (runeString b)).toNat % 256 = digitOf cs b := by
      unfold digitOf at hd ⊢
      omega
    rw [hmod, List.map_cons, Nat.ofDigits_cons]
    have hsplit : cs.length ^ i *
        (digitOf cs b + cs.length * Nat.ofDigits cs.length (rest.map (digitOf cs)))
        = digitOf cs b * cs.length ^ i
          + cs.length ^ (i + 1) * Nat.ofDigits cs.length (rest.map (digitOf cs)) := by ring
    rw [hsplit]
    generalize digitOf cs b * cs.length ^ i = A
    generalize cs.length ^ (i + 1) * Nat.ofDigits cs.length (rest.map (digitOf cs)) = B
    simp only [Option.some.injEq]
    omega

theorem encodeLoop_notFound (cs : List Byte) :
    ∀ (src : List Byte) (i tot : Nat),
      (∃ b ∈ src, stringsIndex cs (runeString b) = -1) →
      i + src.length ≤ (powermap32 cs.length).length →
      encodeLoop cs src i tot = some none
  | [], _, _, h, _ => by simp at h
  | b :: rest, i, tot, h, hi => by
    simp only [List.length_cons] at hi
    unfold encodeLoop
    by_cases hb : stringsIndex cs (runeString b) = -1
    · simp only [hb, if_true]
    · simp only [hb, if_false]
      have hget : (powermap32 cs.length)[i]? = some ((powermap32 cs.length)[i]) :=
        List.getElem?_eq_getElem (by omega)
      rw [hget]
      simp only
      apply encodeLoop_notFound cs rest (i + 1) _ _ (by omega)
      obtain ⟨c, hc, hc'⟩ := h
      rcases List.mem_cons.mp hc with rfl | hc
      · exact absurd hc' hb
      · exact ⟨c, hc, hc'⟩

theorem putUint32_eq (dst : List Byte) (v : Nat) (h : 4 ≤ dst.length) :
    putUint32 dst v = some ([Fin.ofNat v, Fin.ofNat (v / 2 ^ 8), Fin.ofNat (v / 2 ^ 16),
      Fin.ofNat (v / 2 ^ 24)] ++ dst.drop 4) := by
  unfold putUint32
  rw [if_neg (by omega)]

theorem getUint32_put (rest : List Byte) (v : Nat) (hv : v < 2 ^ 32) :
    getUint32 ([Fin.ofNat v, Fin.ofNat (v / 2 ^ 8), Fin.ofNat (v / 2 ^ 16),
      Fin.ofNat (v / 2 ^ 24)] ++ rest) = some v := by
  simp only [getUint32, List.cons_append, List.nil_append, Option.some.injEq]
  show v % 256 + (v / 2 ^ 8) % 256 * 2 ^ 8 + (v / 2 ^ 16) % 256 * 2 ^ 16
    + (v / 2 ^ 24) % 256 * 2 ^ 24 = v
  omega

/-- What `Encode` does on an input all of whose bytes are found and that is no
longer than `MaxChars()`: the natural-number value of the digits is written. -/
theorem Encode_found (cs : List Byte) (h1 : 10 ≤ cs.length) (h2 : cs.length ≤ 64)
    (src : List Byte) (hlen : src.length ≤ maxCharsOf cs.length)
    (hf : ∀ b ∈ src, stringsIndex cs (runeString b) ≠ -1) (dst : List Byte) :
    (NewEncoding cs).Encode dst src
      = putUint32 dst (Nat.ofDigits cs.length (src.map (digitOf cs)))
    ∧ Nat.ofDigits cs.length (src.map (digitOf cs)) < 2 ^ 32 := by
  have hbound : Nat.ofDigits cs.length (src.map (digitOf cs)) ≤ maxUint32 := by
    apply ofDigits_le_maxUint32 _ h1 h2
    · simpa using hlen
    · intro d hd
      obtain ⟨b, hb, rfl⟩ := List.mem_map.mp hd
      exact digitOf_lt cs b (hf b hb)
  have hlt : Nat.ofDigits cs.length (src.map (digitOf cs)) < 2 ^ 32 := by
    unfold maxUint32 at hbound; omega
  refine ⟨?_, hlt⟩
  unfold Encoding.Encode
  rw [MaxChars_valid cs h1 h2, if_neg (by omega), NewEncoding_charset cs h1 h2,
    encodeLoop_found cs h1 h2 src 0 0 (by norm_num) hf (by omega)]
  simp only [pow_zero, one_mul, zero_add]
  rw [Nat.mod_eq_of_lt hlt]

theorem EncodeToUint32_found (cs : List Byte) (h1 : 10 ≤ cs.length) (h2 : cs.length ≤ 64)
    (src : List Byte) (hlen : src.length ≤ maxCharsOf cs.length)
    (hf : ∀ b ∈ src, stringsIndex cs (runeString b) ≠ -1) :
    (NewEncoding cs).EncodeToUint32 src
      = some (Nat.ofDigits cs.length (src.map (digitOf cs))) := by
  obtain ⟨he, hlt⟩ := Encode_found cs h1 h2 src hlen hf [0, 0, 0, 0]
  unfold Encoding.EncodeToUint32
  rw [he, putUint32_eq _ _ (by simp)]
  exact getUint32_put _ _ hlt

theorem digitOf_ascii (cs : List Byte) (hcs : IsAscii cs) (b : Byte) (hb : b ∈ cs) :
    digitOf cs b = cs.indexOf b := by
  unfold digitOf
  rw [stringsIndex_ascii cs hcs b, if_pos hb]
  simp

theorem found_of_mem (cs : List Byte) (hcs : IsAscii cs) (b : Byte) (hb : b ∈ cs) :
    stringsIndex cs (runeString b) ≠ -1 := by
  rw [stringsIndex_ascii cs hcs b, if_pos hb]
  omega

theorem map_digitOf_ascii (cs : List Byte) (hcs : IsAscii cs) (src : List Byte)
    (hmem : ∀ b ∈ src, b ∈ cs) :
    src.map (digitOf cs) = src.map (fun b => cs.indexOf b) :=
  List.map_congr_left (fun b hb => digitOf_ascii cs hcs b (hmem b hb))

/-! ## The loop of `Decode` -/

theorem writtenCount_pos (L fuel num : Nat) (zf : Bool) (hL : 1 < L) (hnum : 0 < num) :
    writtenCount L (fuel + 1) num zf = writtenCount L fuel (num / L) zf + 1 := by
  unfold writtenCount
  cases zf
  · simp only [Bool.false_eq_true, if_false]
    rw [Nat.digits_def' hL hnum, List.length_cons]
    omega
  · simp

theorem writtenCount_zero (L fuel : Nat) (zf : Bool) :
    writtenCount L fuel 0 zf = if zf then fuel else 0 := by
  unfold writtenCount
  cases zf <;> simp

theorem digitSymbols_succ (cs : List Byte) (c n : Nat) :
    digitSymbols cs c (n + 1)
      = cs.getD (c % cs.length) 0 :: digitSymbols cs (c / cs.length) n := by
  unfold digitSymbols
  rw [List.range_succ_eq_map, List.map_cons, List.map_map]
  simp only [pow_zero, Nat.div_one, List.cons.injEq, true_and]
  apply List.map_congr_left
  intro k _
  simp only [Function.comp, Nat.succ_eq_add_one, pow_succ, Nat.div_div_eq_div_mul]
  rw [mul_comm]

theorem set_take_drop (dst : List Byte) (counter m : Nat) (ch : Byte) (tl : List Byte)
    (h : counter < dst.length) :
    (dst.set counter ch).take (counter + 1) ++ tl ++ (dst.set counter ch).drop (counter + 1 + m)
      = dst.take counter ++ ch :: tl ++ dst.drop (counter + (m + 1)) := by
  rw [List.set_eq_take_append_cons_drop, if_pos h]
  have hlen : (dst.take counter).length = counter := by
    rw [List.length_take]; omega
  have e1 : (List.take counter dst ++ ch :: List.drop (counter + 1) dst).take (counter + 1)
      = dst.take counter ++ [ch] := by
    rw [List.take_append_eq_append_take, hlen]
    simp [List.take_take]
  have e2 : (List.take counter dst ++ ch :: List.drop (counter + 1) dst).drop (counter + 1 + m)
      = dst.drop (counter + (m + 1)) := by
    rw [List.drop_append_eq_append_drop, hlen]
    have h0 : (dst.take counter).drop (counter + 1 + m) = [] := by
      apply List.drop_eq_nil_of_le; omega
    have h1 : counter + 1 + m - counter = m + 1 := by omega
    rw [h0, h1, List.nil_append, List.drop_succ_cons, List.drop_drop]
    congr 1
    omega
  rw [e1, e2]
  simp

/-- The loop of `Decode` writes the symbols of the digits of `num` from position
`counter` on and leaves the rest of `dst` as it was. -/
theorem decodeLoop_spec (cs : List Byte) (hL : 1 < cs.length) (hL' : cs.length ≤ 256)
    (zf : Bool) : ∀ (fuel counter num : Nat) (dst : List Byte),
      counter + writtenCount cs.length fuel num zf ≤ dst.length →
      decodeLoop cs cs.length zf fuel counter num dst
        = some (dst.take counter ++ digitSymbols cs num (writtenCount cs.length fuel num zf)
            ++ dst.drop (counter + writtenCount cs.length fuel num zf))
  | 0, counter, num, dst, _ => by
    have h0 : writtenCount cs.length 0 num zf = 0 := by
      unfold writtenCount; cases zf <;> simp
    simp [decodeLoop, h0, digitSymbols]
  | fuel + 1, counter, num, dst, h => by
    unfold decodeLoop
    by_cases hnum : 0 < num
    · rw [if_pos hnum]
      have hw := writtenCount_pos cs.length fuel num zf hL hnum
      rw [hw] at h ⊢
      have hx : num % cs.length < cs.length := Nat.mod_lt _ (by omega)
      have hx' : num % cs.length % 256 = num % cs.length := Nat.mod_eq_of_lt (by omega)
      have hget : cs[num % cs.length % 256]? = some (cs.getD (num % cs.length) 0) := by
        rw [hx', List.getD_eq_getElem?_getD, List.getElem?_eq_getElem hx]
        rfl
      rw [hget]
      simp only
      rw [if_pos (by omega)]
      rw [decodeLoop_spec cs hL hL' zf fuel (counter + 1) (num / cs.length) _
        (by rw [List.length_set]; omega)]
      rw [digitSymbols_succ, set_take_drop _ _ _ _ _ (by omega)]
    · have hz : num = 0 := by omega
      subst hz
      rw [if_neg hnum]
      rw [writtenCount_zero] at h ⊢
      cases zf
      · simp [digitSymbols]
      · simp only [if_true] at h ⊢
        have hget : cs[0]? = some (cs.getD (0 % cs.length) 0) := by
          rw [Nat.zero_mod, List.getD_eq_getElem?_getD,
            List.getElem?_eq_getElem (by omega : 0 < cs.length)]
          rfl
        rw [hget]
        simp only
        rw [if_pos (by omega)]
        have ih := decodeLoop_spec cs hL hL' true fuel (counter + 1) 0 (dst.set counter
          (cs.getD (0 % cs.length) 0)) (by rw [List.length_set, writtenCount_zero]; simp; omega)
        rw [writtenCount_zero] at ih
        simp only [if_true] at ih
        rw [ih, digitSymbols_succ, Nat.zero_div, set_take_drop _ _ _ _ _ (by omega)]

/-- What `Decode` leaves in `dst` under a valid charset. -/
theorem Decode_valid (cs : List Byte) (h1 : 10 ≤ cs.length) (h2 : cs.length ≤ 64)
    (c : Nat) (zf : Bool) (dst : List Byte)
    (h : writtenCount cs.length (maxCharsOf cs.length) c zf ≤ dst.length) :
    (NewEncoding cs).Decode dst c zf
      = some (digitSymbols cs c (writtenCount cs.length (maxCharsOf cs.length) c zf)
          ++ dst.drop (writtenCount cs.length (maxCharsOf cs.length) c zf)) := by
  unfold Encoding.Decode
  rw [MaxChars_valid cs h1 h2, NewEncoding_charset cs h1 h2, Int.toNat_ofNat,
    Nat.mod_eq_of_lt (by omega : cs.length < 2 ^ 32),
    decodeLoop_spec cs (by omega) (by omega) zf _ 0 c dst (by omega)]
  simp

theorem digitSymbols_length (cs : List Byte) (c n : Nat) :
    (digitSymbols cs c n).length = n := by
  simp [digitSymbols]

theorem digitSymbols_getElem? (cs : List Byte) (hL : 0 < cs.length) (c n k : Nat)
    (hk : k < n) :
    (digitSymbols cs c n)[k]? = cs[c / cs.length ^ k % cs.length]? := by
  unfold digitSymbols
  rw [List.getElem?_map, List.getElem?_range hk]
  simp only [Option.map_some']
  rw [List.getD_eq_getElem?_getD, List.getElem?_eq_getElem (Nat.mod_lt _ hL)]
  rfl

/-! ## Digits of an encoded value -/

theorem ofDigits_div_pow_mod (L : Nat) (hL : 1 < L) : ∀ (ds : List Nat) (k : Nat),
    (∀ d ∈ ds, d < L) → Nat.ofDigits L ds / L ^ k % L = ds.getD k 0
  | [], k, _ => by simp
  | d :: ds, 0, h => by
    have hd : d < L := h d (List.mem_cons_self _ _)
    rw [Nat.ofDigits_cons, pow_zero, Nat.div_one, Nat.add_mul_mod_self_left,
      Nat.mod_eq_of_lt hd]
    rfl
  | d :: ds, k + 1, h => by
    have hd : d < L := h d (List.mem_cons_self _ _)
    rw [Nat.ofDigits_cons, pow_succ, mul_comm (L ^ k) L, ← Nat.div_div_eq_div_mul,
      Nat.add_mul_div_left _ _ (by omega : 0 < L), Nat.div_eq_of_lt hd, zero_add,
      List.getD_cons_succ]
    exact ofDigits_div_pow_mod L hL ds k (fun x hx => h x (List.mem_cons_of_mem _ hx))

theorem range_map_getD : ∀ (n : Nat) (ds : List Nat),
    (List.range n).map (fun k => ds.getD k 0) = ds.take n ++ List.replicate (n - ds.length) 0
  | 0, ds => by simp
  | n + 1, [] => by
    simp only [List.getD_nil, List.take_nil, List.length_nil, Nat.sub_zero, List.nil_append]
    rw [List.eq_replicate_iff]
    simp
  | n + 1, d :: ds => by
    rw [List.range_succ_eq_map, List.map_cons, List.map_map]
    have ih := range_map_getD n ds
    simp only [List.getD_cons_zero, List.take_succ_cons, List.length_cons,
      Nat.add_sub_add_right, List.cons_append, List.cons.injEq, true_and]
    rw [← ih]
    apply List.map_congr_left
    intro k _
    simp

theorem digitSymbols_ofDigits (cs : List Byte) (hL : 1 < cs.length) (ds : List Nat)
    (hds : ∀ d ∈ ds, d < cs.length) (n : Nat) :
    digitSymbols cs (Nat.ofDigits cs.length ds) n
      = (ds.take n ++ List.replicate (n - ds.length) 0).map (fun d => cs.getD d 0) := by
  rw [← range_map_getD, List.map_map]
  unfold digitSymbols
  apply List.map_congr_left
  intro k _
  simp only [Function.comp]
  rw [ofDigits_div_pow_mod _ hL ds k hds]

theorem getD_indexOf (cs : List Byte) (b : Byte) (hb : b ∈ cs) :
    cs.getD (cs.indexOf b) 0 = b := by
  have hlt : cs.indexOf b < cs.length := List.indexOf_lt_length.mpr hb
  rw [List.getD_eq_getElem?_getD, List.getElem?_eq_getElem hlt]
  simp

theorem map_getD_indexOf (cs : List Byte) : ∀ (s : List Byte), (∀ b ∈ s, b ∈ cs) →
    (s.map (fun b => cs.indexOf b)).map (fun d => cs.getD d 0) = s
  | [], _ => rfl
  | b :: s, h => by
    rw [List.map_cons, List.map_cons, getD_indexOf cs b (h b (List.mem_cons_self _ _)),
      map_getD_indexOf cs s (fun c hc => h c (List.mem_cons_of_mem _ hc))]

theorem indexOf_lt_of_mem (cs : List Byte) (s : List Byte) (hmem : ∀ b ∈ s, b ∈ cs) :
    ∀ d ∈ s.map (fun b => cs.indexOf b), d < cs.length := by
  intro d hd
  obtain ⟨b, hb, rfl⟩ := List.mem_map.mp hd
  exact List.indexOf_lt_length.mpr (hmem b hb)

theorem rdropWhile_map_comp {α β : Type} (f : α → β) (p : β → Bool) (l : List α) :
    (l.map f).rdropWhile p = (l.rdropWhile (p ∘ f)).map f := by
  simp only [List.rdropWhile, ← List.map_reverse, List.dropWhile_map]

theorem rdropWhile_congr_mem {α : Type} (p q : α → Bool) (l : List α)
    (h : ∀ x ∈ l, p x = q x) : l.rdropWhile p = l.rdropWhile q := by
  induction l using List.reverseRecOn with
  | nil => simp
  | append_singleton l x ih =>
    have hx : p x = q x := h x (by simp)
    have hl : ∀ y ∈ l, p y = q y := fun y hy => h y (by simp [hy])
    rw [List.rdropWhile_concat, List.rdropWhile_concat, hx, ih hl]

theorem ofDigits_rdropWhile (L : Nat) (ds : List Nat) :
    Nat.ofDigits L (ds.rdropWhile (fun d => d == 0)) = Nat.ofDigits L ds := by
  induction ds using List.reverseRecOn with
  | nil => simp
  | append_singleton l x ih =>
    by_cases hx : x = 0
    · subst hx
      rw [List.rdropWhile_concat_pos _ _ _ (by simp), ih, Nat.ofDigits_append]
      simp
    · rw [List.rdropWhile_concat_neg _ _ _ (by simpa using hx)]

/-- The base-`L` digits of the value of `ds` are `ds` without its trailing
zeros. -/
theorem digits_ofDigits_strip (L : Nat) (hL : 1 < L) (ds : List Nat)
    (hds : ∀ d ∈ ds, d < L) :
    Nat.digits L (Nat.ofDigits L ds) = ds.rdropWhile (fun d => d == 0) := by
  rw [← ofDigits_rdropWhile]
  apply Nat.digits_ofDigits L hL
  · intro d hd
    exact hds d (( List.rdropWhile_prefix _ _).subset hd)
  · intro hne
    have := List.rdropWhile_last_not (fun d => d == 0) ds hne
    simpa using this

theorem indexOf_eq_zero_iff (cs : List Byte) (b : Byte) (hb : b ∈ cs) :
    (cs.indexOf b == 0) = decide (some b = cs[0]?) := by
  cases cs with
  | nil => simp at hb
  | cons c cs =>
    by_cases hcb : c = b
    · subst hcb; simp
    · have hbc : ¬ b = c := fun h => hcb h.symm
      rw [List.indexOf_cons_ne _ hcb]
      simp [hbc]

/-- The digits of `s` without trailing zeros are the digits of `s` without its
trailing zero symbols. -/
theorem strip_map_indexOf (cs s : List Byte) (hmem : ∀ b ∈ s, b ∈ cs) :
    (s.map (fun b => cs.indexOf b)).rdropWhile (fun d => d == 0)
      = (stripZero cs s).map (fun b => cs.indexOf b) := by
  rw [rdropWhile_map_comp]
  unfold stripZero
  congr 1
  apply rdropWhile_congr_mem
  intro b hb
  exact indexOf_eq_zero_iff cs b (hmem b hb)

theorem stripZero_initial (cs s : List Byte) : stripZero cs s <+: s :=
  List.rdropWhile_prefix _ _

/-- The value `EncodeToUint32` returns on a string of symbols of an ASCII
charset. -/
theorem EncodeToUint32_ascii (cs : List Byte) (hcs : IsAscii cs)
    (h1 : 10 ≤ cs.length) (h2 : cs.length ≤ 64) (s : List Byte)
    (hlen : s.length ≤ maxCharsOf cs.length) (hmem : ∀ b ∈ s, b ∈ cs) :
    (NewEncoding cs).EncodeToUint32 s
      = some (Nat.ofDigits cs.length (s.map (fun b => cs.indexOf b))) := by
  rw [← map_digitOf_ascii cs hcs s hmem]
  exact EncodeToUint32_found cs h1 h2 s hlen (fun b hb => found_of_mem cs hcs b (hmem b hb))

theorem writtenCount_encoded (cs : List Byte) (h1 : 10 ≤ cs.length) (s : List Byte)
    (hlen : s.length ≤ maxCharsOf cs.length) (hmem : ∀ b ∈ s, b ∈ cs) :
    writtenCount cs.length (maxCharsOf cs.length)
      (Nat.ofDigits cs.length (s.map (fun b => cs.indexOf b))) false
      = (stripZero cs s).length := by
  unfold writtenCount
  rw [digits_ofDigits_strip _ (by omega) _ (indexOf_lt_of_mem cs s hmem),
    strip_map_indexOf cs s hmem, List.length_map]
  have := (stripZero_initial cs s).length_le
  simp only [Bool.false_eq_true, if_false]
  omega

theorem digitSymbols_encoded_strip (cs : List Byte) (h1 : 10 ≤ cs.length) (s : List Byte)
    (hmem : ∀ b ∈ s, b ∈ cs) :
    digitSymbols cs (Nat.ofDigits cs.length (s.map (fun b => cs.indexOf b)))
      (stripZero cs s).length = stripZero cs s := by
  have hpre := stripZero_initial cs s
  have hle := hpre.length_le
  rw [digitSymbols_ofDigits cs (by omega) _ (indexOf_lt_of_mem cs s hmem)]
  have h0 : (stripZero cs s).length - (s.map (fun b => cs.indexOf b)).length = 0 := by
    rw [List.length_map]; omega
  rw [h0, List.replicate_zero, List.append_nil, ← List.map_take,
    ← List.prefix_iff_eq_take.mp hpre]
  exact map_getD_indexOf cs _ (fun b hb => hmem b (hpre.subset hb))

theorem digitSymbols_encoded_pad (cs : List Byte) (h1 : 10 ≤ cs.length) (s : List Byte)
    (hmem : ∀ b ∈ s, b ∈ cs) (n : Nat) (hn : s.length ≤ n) :
    digitSymbols cs (Nat.ofDigits cs.length (s.map (fun b => cs.indexOf b))) n
      = padZero cs s n := by
  rw [digitSymbols_ofDigits cs (by omega) _ (indexOf_lt_of_mem cs s hmem)]
  rw [List.take_of_length_le (by rw [List.length_map]; exact hn), List.map_append,
    map_getD_indexOf cs s hmem, List.map_replicate, List.length_map]
  rfl

/-! ## Decoding, then encoding -/

theorem ofDigits_range_digits (L c : Nat) : ∀ n : Nat,
    Nat.ofDigits L ((List.range n).map (fun k => c / L ^ k % L)) = c % L ^ n
  | 0 => by simp [Nat.mod_one]
  | n + 1 => by
    rw [List.range_succ, List.map_append, Nat.ofDigits_append, ofDigits_range_digits L c n,
      List.length_map, List.length_range, Nat.mod_pow_succ]
    simp

theorem digitSymbols_mem (cs : List Byte) (hL : 0 < cs.length) (c n : Nat) :
    ∀ b ∈ digitSymbols cs c n, b ∈ cs := by
  intro b hb
  unfold digitSymbols at hb
  obtain ⟨k, _, rfl⟩ := List.mem_map.mp hb
  have hlt : c / cs.length ^ k % cs.length < cs.length := Nat.mod_lt _ hL
  rw [List.getD_eq_getElem?_getD, List.getElem?_eq_getElem hlt]
  exact List.getElem_mem hlt

theorem digitSymbols_map_indexOf (cs : List Byte) (hnd : cs.Nodup) (hL : 0 < cs.length)
    (c n : Nat) :
    (digitSymbols cs c n).map (fun b => cs.indexOf b)
      = (List.range n).map (fun k => c / cs.length ^ k % cs.length) := by
  unfold digitSymbols
  rw [List.map_map]
  apply List.map_congr_left
  intro k _
  have hlt : c / cs.length ^ k % cs.length < cs.length := Nat.mod_lt _ hL
  simp only [Function.comp]
  rw [List.getD_eq_getElem?_getD, List.getElem?_eq_getElem hlt]
  exact List.indexOf_getElem hnd _ hlt

/-- Encoding the `MaxChars()` symbols that `Decode` with zerofill writes for `c`
gives `c` modulo `L ^ MaxChars()`. -/
theorem EncodeToUint32_digitSymbols (cs : List Byte) (hcs : IsAscii cs) (hnd : cs.Nodup)
    (h1 : 10 ≤ cs.length) (h2 : cs.length ≤ 64) (c : Nat) :
    (NewEncoding cs).EncodeToUint32 (digitSymbols cs c (maxCharsOf cs.length))
      = some (c % cs.length ^ maxCharsOf cs.length) := by
  rw [EncodeToUint32_ascii cs hcs h1 h2 _ (by rw [digitSymbols_length])
    (digitSymbols_mem cs (by omega) c _), digitSymbols_map_indexOf cs hnd (by omega),
    ofDigits_range_digits]

theorem Decode_zerofill_take (cs : List Byte) (h1 : 10 ≤ cs.length) (h2 : cs.length ≤ 64)
    (c : Nat) (dst : List Byte) (hdst : maxCharsOf cs.length ≤ dst.length) :
    ∃ out, (NewEncoding cs).Decode dst c true = some out
      ∧ out.take (maxCharsOf cs.length) = digitSymbols cs c (maxCharsOf cs.length) := by
  have hw : writtenCount cs.length (maxCharsOf cs.length) c true
      = maxCharsOf cs.length := by simp [writtenCount]
  refine ⟨_, Decode_valid cs h1 h2 c true dst (by rw [hw]; exact hdst), ?_⟩
  rw [hw, List.take_left' (digitSymbols_length cs c _)]

/-! ## Failing inputs of `Encode` -/

theorem EncodeToUint32_of_unchanged (e : Encoding) (src : List Byte)
    (h : e.Encode [0, 0, 0, 0] src = some [0, 0, 0, 0]) :
    e.EncodeToUint32 src = some 0 := by
  unfold Encoding.EncodeToUint32
  rw [h]
  rfl

/-- `Encode` leaves `dst` as it is on an input that is too long or holds a byte
that `strings.Index` does not find. -/
theorem Encode_rejected (cs : List Byte) (src dst : List Byte)
    (h : (src.length : Int) > (NewEncoding cs).MaxChars
      ∨ ∃ b ∈ src, stringsIndex (NewEncoding cs).charset (runeString b) = -1) :
    (NewEncoding cs).Encode dst src = some dst := by
  unfold Encoding.Encode
  by_cases hlen : (src.length : Int) > (NewEncoding cs).MaxChars
  · rw [if_pos hlen]
  · rw [if_neg hlen]
    have hb : ∃ b ∈ src, stringsIndex (NewEncoding cs).charset (runeString b) = -1 := by
      rcases h with h | h
      · exact absurd h hlen
      · exact h
    have hnonempty : 0 < src.length := by
      obtain ⟨b, hb, _⟩ := hb
      exact List.length_pos_of_mem hb
    by_cases hv : cs.length < 10 ∨ 64 < cs.length
    · rw [MaxChars_invalid cs hv] at hlen
      omega
    · have h1 : 10 ≤ cs.length := by omega
      have h2 : cs.length ≤ 64 := by omega
      rw [MaxChars_valid cs h1 h2] at hlen
      rw [NewEncoding_charset cs h1 h2] at hb ⊢
      rw [encodeLoop_notFound cs src 0 0 hb
        (by rw [powermap32_length _ h1 h2]; omega)]

/-! ## `FromString` -/

theorem fromStringLoop_ok (cs : List Byte) (hcs : IsAscii cs) :
    ∀ (s : List Byte) (i : Nat) (n : nctype.Numericode), (∀ b ∈ s, b ∈ cs) →
      nctype.fromStringLoop cs s i n
        = .ok (n ++ s.map (fun b => Fin.ofNat (cs.indexOf b)))
  | [], i, n, _ => by simp [nctype.fromStringLoop]
  | b :: rest, i, n, h => by
    have hb : b ∈ cs := h b (List.mem_cons_self _ _)
    unfold nctype.fromStringLoop
    simp only [found_of_mem cs hcs b hb, if_false]
    rw [fromStringLoop_ok cs hcs rest (i + 1) _ (fun c hc => h c (List.mem_cons_of_mem _ hc))]
    have hd : (stringsIndex cs (runeString b)).toNat = cs.indexOf b :=
      digitOf_ascii cs hcs b hb
    rw [hd]
    simp

theorem fromStringLoop_error (cs : List Byte) (hcs : IsAscii cs) :
    ∀ (s : List Byte) (i : Nat) (n : nctype.Numericode), (∃ b ∈ s, b ∉ cs) →
      ∃ j, nctype.fromStringLoop cs s i n = .error (.invalidCharacter j)
  | [], _, _, h => by simp at h
  | b :: rest, i, n, h => by
    unfold nctype.fromStringLoop
    by_cases hb : b ∈ cs
    · simp only [found_of_mem cs hcs b hb, if_false]
      apply fromStringLoop_error cs hcs rest (i + 1)
      obtain ⟨c, hc, hc'⟩ := h
      rcases List.mem_cons.mp hc with rfl | hc
      · exact absurd hb hc'
      · exact ⟨c, hc, hc'⟩
    · have hnf : stringsIndex cs (runeString b) = -1 := by
        rw [stringsIndex_ascii cs hcs b, if_neg hb]
      simp only [hnf, if_true]
      exact ⟨i, rfl⟩

/-! ## Package `nctype`: the state and `FromString` on any charset -/

theorem Reachable_valid (u : List Byte) (h : nctype.Reachable u) :
    10 ≤ u.length ∧ u.length ≤ 64 := by
  induction h with
  | initial => exact ⟨by decide, by decide⟩
  | overide u s _ ih =>
    unfold nctype.OverideCharSet
    split
    · exact ih
    · omega

theorem nctype_MaxChars_valid (cs : List Byte) (h1 : 10 ≤ cs.length) (h2 : cs.length ≤ 64) :
    nctype.MaxChars cs = (maxCharsOf cs.length : Int) := by
  unfold nctype.MaxChars
  rw [powermap32_length _ h1 h2]
  push_cast
  omega

theorem nctype_MaxChars_invalid (cs : List Byte) (h : cs.length < 10 ∨ 64 < cs.length) :
    nctype.MaxChars cs = -1 := by
  unfold nctype.MaxChars powermap32
  rw [if_neg (by omega)]
  rfl

theorem fromStringLoop_found (cs : List Byte) :
    ∀ (s : List Byte) (i : Nat) (n : nctype.Numericode),
      (∀ b ∈ s, stringsIndex cs (runeString b) ≠ -1) →
      nctype.fromStringLoop cs s i n
        = .ok (n ++ s.map (fun b => Fin.ofNat (digitOf cs b)))
  | [], i, n, _ => by simp [nctype.fromStringLoop]
  | b :: rest, i, n, h => by
    have hb := h b (List.mem_cons_self _ _)
    unfold nctype.fromStringLoop
    simp only [hb, if_false]
    rw [fromStringLoop_found cs rest (i + 1) _ (fun c hc => h c (List.mem_cons_of_mem _ hc))]
    simp [digitOf]

theorem fromStringLoop_notFound (cs : List Byte) :
    ∀ (s : List Byte) (i : Nat) (n : nctype.Numericode),
      (∃ b ∈ s, stringsIndex cs (runeString b) = -1) →
      ∃ j, nctype.fromStringLoop cs s i n = .error (.invalidCharacter j)
  | [], _, _, h => by simp at h
  | b :: rest, i, n, h => by
    unfold nctype.fromStringLoop
    by_cases hb : stringsIndex cs (runeString b) = -1
    · simp only [hb, if_true]
      exact ⟨i, rfl⟩
    · simp only [hb, if_false]
      apply fromStringLoop_notFound cs rest (i + 1)
      obtain ⟨c, hc, hc'⟩ := h
      rcases List.mem_cons.mp hc with rfl | hc
      · exact absurd hc' hb
      · exact ⟨c, hc, hc'⟩

/-- What an accepted string tells: the charset has 10 to 64 bytes, the string is
no longer than `MaxChars()`, every byte is found, and the Numericode holds the
indices that `strings.Index` returned. -/
theorem FromString_accepted (cs s : List Byte) (n : nctype.Numericode)
    (hn : nctype.FromString cs s = .ok n) :
    (10 ≤ cs.length ∧ cs.length ≤ 64)
      ∧ s.length ≤ maxCharsOf cs.length
      ∧ (∀ b ∈ s, stringsIndex cs (runeString b) ≠ -1)
      ∧ n = s.map (fun b => Fin.ofNat (digitOf cs b)) := by
  unfold nctype.FromString at hn
  by_cases hlen : (s.length : Int) > nctype.MaxChars cs
  · rw [if_pos hlen] at hn
    cases hn
  · rw [if_neg hlen] at hn
    have hv : 10 ≤ cs.length ∧ cs.length ≤ 64 := by
      by_contra hv
      rw [nctype_MaxChars_invalid cs (by omega)] at hlen
      omega
    rw [nctype_MaxChars_valid cs hv.1 hv.2] at hlen
    have hf : ∀ b ∈ s, stringsIndex cs (runeString b) ≠ -1 := by
      intro b hb hbad
      obtain ⟨j, hj⟩ := fromStringLoop_notFound cs s 0 [] ⟨b, hb, hbad⟩
      rw [hj] at hn
      cases hn
    refine ⟨hv, by omega, hf, ?_⟩
    rw [fromStringLoop_found cs s 0 [] hf] at hn
    simpa using (Except.ok.inj hn).symm

theorem map_val_digits (cs : List Byte) (h2 : cs.length ≤ 64) (s : List Byte)
    (hf : ∀ b ∈ s, stringsIndex cs (runeString b) ≠ -1) :
    (s.map (fun b => (Fin.ofNat (digitOf cs b) : Byte))).map Fin.val
      = s.map (digitOf cs) := by
  rw [List.map_map]
  apply List.map_congr_left
  intro b hb
  have := digitOf_lt cs b (hf b hb)
  show digitOf cs b % 256 = digitOf cs b
  omega

/-! ## `ToUint32` -/

theorem toUint32Loop_spec (L : Nat) (h1 : 10 ≤ L) (h2 : L ≤ 64) :
    ∀ (rest : List Byte) (i tot : Nat), tot < 2 ^ 32 →
      i + rest.length ≤ maxCharsOf L + 1 →
      nctype.toUint32Loop L rest i tot
        = some ((tot + L ^ i * Nat.ofDigits L (rest.map Fin.val)) % 2 ^ 32)
  | [], i, tot, ht, _ => by
    simp only [nctype.toUint32Loop, List.map_nil, Nat.ofDigits_nil, mul_zero, add_zero,
      Option.some.injEq]
    omega
  | b :: rest, i, tot, _, hi => by
    simp only [List.length_cons] at hi
    unfold nctype.toUint32Loop
    rw [powermap32_get _ h1 h2 i (by omega)]
    simp only
    rw [toUint32Loop_spec L h1 h2 rest (i + 1) _ (Nat.mod_lt _ (by norm_num)) (by omega),
      List.map_cons, Nat.ofDigits_cons]
    have hsplit : L ^ i * (b.val + L * Nat.ofDigits L (rest.map Fin.val))
        = b.val * L ^ i + L ^ (i + 1) * Nat.ofDigits L (rest.map Fin.val) := by ring
    rw [hsplit]
    generalize b.val * L ^ i = A
    generalize L ^ (i + 1) * Nat.ofDigits L (rest.map Fin.val) = B
    simp only [Option.some.injEq]
    omega

/-- On a non-empty Numericode of at most `MaxChars()` bytes, `ToUint32` returns
the positional value of the bytes reduced modulo `2^32`, without error. -/
theorem ToUint32_inRange (cs : List Byte) (h1 : 10 ≤ cs.length) (h2 : cs.length ≤ 64)
    (n : nctype.Numericode) (hne : n ≠ []) (hlen : n.length ≤ maxCharsOf cs.length) :
    nctype.ToUint32 cs n
      = some (.ok (Nat.ofDigits cs.length (n.map Fin.val) % 2 ^ 32)) := by
  unfold nctype.ToUint32
  rw [nctype_MaxChars_valid cs h1 h2, if_neg (by omega)]
  cases n with
  | nil => exact absurd rfl hne
  | cons b0 rest =>
    simp only [List.length_cons] at hlen
    simp only
    rw [toUint32Loop_spec _ h1 h2 rest 1 b0.val (by have := b0.isLt; omega) (by omega),
      List.map_cons, Nat.ofDigits_cons, pow_one]

theorem ToUint32_tooLong (cs : List Byte) (n : nctype.Numericode)
    (hlen : (n.length : Int) > nctype.MaxChars cs) :
    nctype.ToUint32 cs n = some (.error .truncation) := by
  unfold nctype.ToUint32
  rw [if_pos hlen]

theorem Value_of_ToUint32 (cs : List Byte) (n : nctype.Numericode) (v : Nat)
    (h : nctype.ToUint32 cs n = some (.ok v)) : nctype.Value cs n = some v := by
  unfold nctype.Value
  rw [h]

/-- On a non-empty Numericode of at most `MaxChars()` digits below `L`,
`ToUint32` returns their positional value itself. -/
theorem ToUint32_digits (cs : List Byte) (h1 : 10 ≤ cs.length) (h2 : cs.length ≤ 64)
    (n : nctype.Numericode) (hne : n ≠ []) (hlen : n.length ≤ maxCharsOf cs.length)
    (hd : ∀ b ∈ n, b.val < cs.length) :
    nctype.ToUint32 cs n = some (.ok (Nat.ofDigits cs.length (n.map Fin.val)))
      ∧ Nat.ofDigits cs.length (n.map Fin.val) ≤ maxUint32 := by
  have hbound : Nat.ofDigits cs.length (n.map Fin.val) ≤ maxUint32 := by
    apply ofDigits_le_maxUint32 _ h1 h2
    · simpa using hlen
    · intro d hd'
      obtain ⟨b, hb, rfl⟩ := List.mem_map.mp hd'
      exact hd b hb
  refine ⟨?_, hbound⟩
  rw [ToUint32_inRange cs h1 h2 n hne hlen, Nat.mod_eq_of_lt]
  unfold maxUint32 at hbound
  omega

/-! ## `String` -/

theorem mem_of_found (cs : List Byte) (hcs : IsAscii cs) (b : Byte)
    (h : stringsIndex cs (runeString b) ≠ -1) : b ∈ cs := by
  by_contra hb
  rw [stringsIndex_ascii cs hcs b, if_neg hb] at h
  exact h rfl

theorem stringLoop_spec (cs : List Byte) (hcs : IsAscii cs) (hL : cs.length ≤ 256) :
    ∀ (s : List Byte) (str : List Byte), (∀ b ∈ s, b ∈ cs) →
      nctype.stringLoop cs (s.map (fun b => Fin.ofNat (cs.indexOf b))) str
        = some (str ++ s)
  | [], str, _ => by simp [nctype.stringLoop]
  | b :: rest, str, h => by
    have hb : b ∈ cs := h b (List.mem_cons_self _ _)
    have hlt : cs.indexOf b < cs.length := List.indexOf_lt_length.mpr hb
    have hval : (Fin.ofNat (cs.indexOf b) : Byte).val = cs.indexOf b := by
      show cs.indexOf b % 256 = cs.indexOf b
      omega
    have hget : cs[cs.indexOf b]? = some b := by
      rw [List.getElem?_eq_getElem hlt]
      simp
    have hrune : runeString b = [b] := by
      unfold runeString
      rw [if_pos (hcs b hb)]
    rw [List.map_cons]
    unfold nctype.stringLoop
    rw [hval, hget]
    simp only
    rw [hrune, stringLoop_spec cs hcs hL rest _ (fun c hc => h c (List.mem_cons_of_mem _ hc))]
    simp

/-! ## `FromUint32` -/

theorem digits_length_le (b m k : Nat) (hb : 1 < b) (h : m < b ^ k) :
    (Nat.digits b m).length ≤ k := by
  by_cases hm : m = 0
  · subst hm; simp
  · have h1 := Nat.base_pow_length_digits_le b m hb hm
    have h2 : b * m < b ^ (k + 1) := by
      rw [pow_succ, mul_comm]
      exact Nat.mul_lt_mul_of_pos_right h (by omega)
    have h3 : b ^ (Nat.digits b m).length < b ^ (k + 1) := lt_of_le_of_lt h1 h2
    have := (Nat.pow_lt_pow_iff_right hb).mp h3
    omega

theorem fromUint32Loop_spec (l : Nat) (hl : 2 ≤ l) (hl' : l ≤ 256) :
    ∀ (fuel num : Nat) (str : nctype.Numericode), (Nat.digits l num).length ≤ fuel →
      nctype.fromUint32Loop l fuel num str
        = some (str ++ (Nat.digits l num).map (fun d => Fin.ofNat d))
  | 0, num, str, h => by
    have hnum : num = 0 := by
      have : Nat.digits l num = [] := List.length_eq_zero.mp (by omega)
      exact Nat.digits_eq_nil_iff_eq_zero.mp this
    subst hnum
    simp [nctype.fromUint32Loop]
  | fuel + 1, num, str, h => by
    unfold nctype.fromUint32Loop
    by_cases hnum : 0 < num
    · rw [if_pos hnum]
      have hmod : l % 2 ^ 32 = l := Nat.mod_eq_of_lt (by omega)
      rw [hmod, if_neg (by omega)]
      rw [Nat.digits_def' (by omega) hnum, List.length_cons] at h
      rw [fromUint32Loop_spec l hl hl' fuel (num / l) _ (by omega),
        Nat.digits_def' (by omega) hnum]
      simp
    · have hz : num = 0 := by omega
      subst hz
      simp

/-- Under a charset of length `L` in `10..64`, `FromUint32` returns, with a nil
error, the base-`L` digits of a 32-bit `i`, least significant first: at most
`MaxChars() + 1` of them, and at most `MaxChars()` when `i < L ^ MaxChars()`. -/
theorem FromUint32_digits (cs : List Byte) (h1 : 10 ≤ cs.length) (h2 : cs.length ≤ 64)
    (i : Nat) (hi : i < 2 ^ 32) :
    nctype.FromUint32 cs i
        = some (.ok ((Nat.digits cs.length i).map (fun d => Fin.ofNat d)))
      ∧ (∀ d ∈ Nat.digits cs.length i, d < cs.length)
      ∧ (Nat.digits cs.length i).length ≤ maxCharsOf cs.length + 1
      ∧ (i < cs.length ^ maxCharsOf cs.length →
          (Nat.digits cs.length i).length ≤ maxCharsOf cs.length) := by
  have hpow : (2 : Nat) ^ 32 ≤ cs.length ^ 32 := Nat.pow_le_pow_left (by omega) 32
  have hfuel : (Nat.digits cs.length i).length ≤ 32 :=
    digits_length_le _ _ _ (by omega) (by omega)
  have htab := (powermap32_shape cs.length h1 h2).2.2.2
  unfold maxUint32 at htab
  refine ⟨?_, fun d hd => Nat.digits_lt_base (by omega) hd,
    digits_length_le _ _ _ (by omega) (by omega),
    fun h => digits_length_le _ _ _ (by omega) h⟩
  unfold nctype.FromUint32
  rw [fromUint32Loop_spec cs.length (by omega) (by omega) 32 i [] hfuel]
  rfl

/-! ## The formula `⌊32 / log2 L⌋` -/

theorem floor_log_formula (L m : Nat) (hL : 2 ≤ L) (hle : L ^ m ≤ 2 ^ 32)
    (hlt : 2 ^ 32 < L ^ (m + 1)) :
    ⌊(32 : ℝ) / Real.logb 2 (L : ℝ)⌋ = (m : ℤ) := by
  have hL1 : (1 : ℝ) < (L : ℝ) := by exact_mod_cast (by omega : 1 < L)
  have hL0 : (0 : ℝ) < (L : ℝ) := by linarith
  have hx : 0 < Real.logb 2 (L : ℝ) := Real.logb_pos (by norm_num) hL1
  have h32 : Real.logb 2 ((2 : ℝ) ^ 32) = 32 := by
    rw [Real.logb_pow, Real.logb_self_eq_one (by norm_num)]
    norm_num
  have hle' : ((L : ℝ)) ^ m ≤ (2 : ℝ) ^ 32 := by exact_mod_cast hle
  have hlt' : (2 : ℝ) ^ 32 < ((L : ℝ)) ^ (m + 1) := by exact_mod_cast hlt
  rw [Int.floor_eq_iff]
  constructor
  · rw [le_div_iff₀ hx]
    have := Real.logb_le_logb_of_le (b := 2) (by norm_num) (pow_pos hL0 m) hle'
    rw [h32, Real.logb_pow] at this
    exact_mod_cast this
  · rw [div_lt_iff₀ hx]
    have := Real.logb_lt_logb (b := 2) (by norm_num) (by positivity) hlt'
    rw [h32, Real.logb_pow] at this
    push_cast at this ⊢
    exact this

theorem pow_succ_maxChars_ne (L : Nat) (h1 : 10 ≤ L) (h2 : L ≤ 64) (h16 : L ≠ 16) :
    L ^ (maxCharsOf L + 1) ≠ 2 ^ 32 := by
  interval_cases L <;> first | exact absurd rfl h16 | decide

/-! ## The value of an accepted string -/

/-- For a non-empty string that `FromString` accepts, `ToUint32` returns the
positional value of the indices that `strings.Index` found. -/
theorem ToUint32_accepted (cs s : List Byte) (hne : s ≠ []) (n : nctype.Numericode)
    (hn : nctype.FromString cs s = .ok n) :
    nctype.ToUint32 cs n
      = some (.ok (Nat.ofDigits cs.length (s.map (digitOf cs)))) := by
  obtain ⟨⟨h1, h2⟩, hlen, hf, hmap⟩ := FromString_accepted cs s n hn
  have hval : n.map Fin.val = s.map (digitOf cs) := by
    rw [hmap]
    exact map_val_digits cs h2 s hf
  have hne' : n ≠ [] := by
    rw [hmap]
    simpa using hne
  have hlen' : n.length ≤ maxCharsOf cs.length := by
    rw [hmap, List.length_map]
    exact hlen
  have hd : ∀ b ∈ n, b.val < cs.length := by
    intro b hb
    have : b.val ∈ n.map Fin.val := List.mem_map_of_mem _ hb
    rw [hval] at this
    obtain ⟨c, hc, hc'⟩ := List.mem_map.mp this
    rw [← hc']
    exact digitOf_lt cs c (hf c hc)
  have hto := (ToUint32_digits cs h1 h2 n hne' hlen' hd).1
  rw [hval] at hto
  exact hto

theorem FromString_of_found (cs s : List Byte) (h1 : 10 ≤ cs.length) (h2 : cs.length ≤ 64)
    (hlen : s.length ≤ maxCharsOf cs.length)
    (hf : ∀ b ∈ s, stringsIndex cs (runeString b) ≠ -1) :
    nctype.FromString cs s = .ok (s.map (fun b => Fin.ofNat (digitOf cs b))) := by
  unfold nctype.FromString
  rw [nctype_MaxChars_valid cs h1 h2, if_neg (by omega), fromStringLoop_found cs s 0 [] hf]
  rfl

/-! ## `ToUint32` on the empty Numericode -/

/-- Under a charset of length `10..64` the empty Numericode passes the length
guard of `ToUint32`, and the read of `n[0]` that follows panics. -/
theorem ToUint32_empty (cs : List Byte) (h1 : 10 ≤ cs.length) (h2 : cs.length ≤ 64) :
    nctype.ToUint32 cs [] = none := by
  unfold nctype.ToUint32
  rw [nctype_MaxChars_valid cs h1 h2, if_neg (by simp)]

/-- Under a charset of length `10..64` the empty string is accepted by
`FromString`, which returns the empty Numericode. -/
theorem FromString_empty (cs : List Byte) (h1 : 10 ≤ cs.length) (h2 : cs.length ≤ 64) :
    nctype.FromString cs [] = .ok [] := by
  have := FromString_of_found cs [] h1 h2 (by simp) (by simp)
  simpa using this

/-- Under a charset of length `10..64`, `FromUint32 0` returns the empty
Numericode with a nil error. -/
theorem FromUint32_zero (cs : List Byte) (h1 : 10 ≤ cs.length) (h2 : cs.length ≤ 64) :
    nctype.FromUint32 cs 0 = some (.ok []) := by
  have := (FromUint32_digits cs h1 h2 0 (by norm_num)).1
  simpa using this

/-! ## Claims -/

/-- C1. For an encoding built by `NewEncoding` from an ASCII charset `cs` of
length `L` in `10..64` and a `src` of at most `MaxChars()` bytes that all occur
in `cs`, `EncodeToUint32 src` is the sum of `pos(src[i]) * L ^ i`, `pos` being
the first index in the charset, and `Encode dst src` writes the four
little-endian bytes of that value over `dst[0..3]`, the rest of `dst` kept. -/
theorem C1_encode_positional (cs : List Byte) (hcs : IsAscii cs)
    (h1 : 10 ≤ cs.length) (h2 : cs.length ≤ 64) (src : List Byte)
    (hlen : (src.length : Int) ≤ (NewEncoding cs).MaxChars)
    (hmem : ∀ b ∈ src, b ∈ cs) :
    (NewEncoding cs).EncodeToUint32 src
        = some (positional cs.length (src.map (fun b => cs.indexOf b)))
      ∧ ∀ dst : List Byte, 4 ≤ dst.length →
          ∃ out, (NewEncoding cs).Encode dst src = some out
            ∧ out.map Fin.val
                = leBytes (positional cs.length (src.map (fun b => cs.indexOf b)))
                  ++ (dst.drop 4).map Fin.val := by
  rw [MaxChars_valid cs h1 h2] at hlen
  have hlen' : src.length ≤ maxCharsOf cs.length := by omega
  have hf : ∀ b ∈ src, stringsIndex cs (runeString b) ≠ -1 :=
    fun b hb => found_of_mem cs hcs b (hmem b hb)
  rw [positional_eq_ofDigits, ← map_digitOf_ascii cs hcs src hmem]
  refine ⟨EncodeToUint32_found cs h1 h2 src hlen' hf, ?_⟩
  intro dst hdst
  obtain ⟨he, _⟩ := Encode_found cs h1 h2 src hlen' hf dst
  refine ⟨_, he.trans (putUint32_eq _ _ hdst), ?_⟩
  simp only [List.map_append, List.map_cons, List.map_nil, leBytes]
  rfl

/-- C1, at the inputs of the tests: the standard charset and `"  A"`, together
with the expected values of `TestEncoding_Encode`. -/
theorem C1_encode_positional_witness :
    (IsAscii stdCharSet ∧ 10 ≤ stdCharSet.length ∧ stdCharSet.length ≤ 64
      ∧ ((bytes "  A").length : Int) ≤ (NewEncoding stdCharSet).MaxChars
      ∧ ∀ b ∈ bytes "  A", b ∈ stdCharSet)
    ∧ ((NewEncoding stdCharSet).EncodeToUint32 (bytes "  A")
        = some (positional stdCharSet.length ((bytes "  A").map (fun b => stdCharSet.indexOf b)))
      ∧ ∀ dst : List Byte, 4 ≤ dst.length →
          ∃ out, (NewEncoding stdCharSet).Encode dst (bytes "  A") = some out
            ∧ out.map Fin.val
                = leBytes (positional stdCharSet.length
                    ((bytes "  A").map (fun b => stdCharSet.indexOf b)))
                  ++ (dst.drop 4).map Fin.val)
    ∧ positional stdCharSet.length ((bytes "  A").map (fun b => stdCharSet.indexOf b)) = 1600
    ∧ StdEncoding.EncodeToUint32 (bytes "A") = some 1
    ∧ StdEncoding.EncodeToUint32 (bytes "Z") = some 26
    ∧ StdEncoding.EncodeToUint32 (bytes "/") = some 39
    ∧ StdEncoding.EncodeToUint32 (bytes " A") = some 40
    ∧ StdEncoding.EncodeToUint32 (bytes "  A") = some 1600
    ∧ (NewEncoding (bytes "0123456789ABCDEF")).EncodeToUint32 (bytes "EF") = some 254
    ∧ StdEncoding.Encode [9, 9, 9, 9, 9] (bytes "  A") = some [64, 6, 0, 0, 9] :=
  ⟨⟨by decide, by decide, by decide, by decide, by decide⟩,
   C1_encode_positional stdCharSet (by decide) (by decide) (by decide) (bytes "  A")
     (by decide) (by decide),
   by decide, by decide, by decide, by decide, by decide, by decide, by decide, by decide⟩

/-- C2. Under a valid charset `cs` of length `L`, for a 32-bit code `c` and a
`dst` with room for the `n` written positions, `Decode dst c zerofill` puts
`charset[(c / L ^ k) % L]` at every `k < n` and keeps `dst[k]` for `k ≥ n`, with
`n = MaxChars()` under `zerofill` and otherwise the number of base-`L` digits of
`c` capped at `MaxChars()`; on an encoding with `MaxChars() = 0` it returns
without a write and without a panic, whatever `dst` is. -/
theorem C2_decode_digits (cs : List Byte) (c : Nat) (_hc : c < 2 ^ 32) (zf : Bool)
    (dst : List Byte) :
    (10 ≤ cs.length → cs.length ≤ 64 →
      writtenCount cs.length (NewEncoding cs).MaxChars.toNat c zf ≤ dst.length →
      ∃ out, (NewEncoding cs).Decode dst c zf = some out
        ∧ out.length = dst.length
        ∧ (∀ k, k < writtenCount cs.length (NewEncoding cs).MaxChars.toNat c zf →
            out[k]? = cs[c / cs.length ^ k % cs.length]?)
        ∧ (∀ k, writtenCount cs.length (NewEncoding cs).MaxChars.toNat c zf ≤ k →
            out[k]? = dst[k]?))
    ∧ ((NewEncoding cs).MaxChars = 0 → (NewEncoding cs).Decode dst c zf = some dst) := by
  constructor
  · intro h1 h2
    rw [MaxChars_valid cs h1 h2, Int.toNat_ofNat]
    intro hn
    refine ⟨_, Decode_valid cs h1 h2 c zf dst hn, ?_, ?_, ?_⟩
    · rw [List.length_append, digitSymbols_length, List.length_drop]
      omega
    · intro k hk
      rw [List.getElem?_append_left (by rw [digitSymbols_length]; exact hk)]
      exact digitSymbols_getElem? cs (by omega) c _ k hk
    · intro k hk
      rw [List.getElem?_append_right (by rw [digitSymbols_length]; exact hk),
        digitSymbols_length, List.getElem?_drop]
      congr 1
      omega
  · intro h0
    unfold Encoding.Decode
    rw [h0]
    rfl

/-- C2, at the hexadecimal charset with the code 254 and a buffer of seven
bytes, and at the invalid charset `"ABCDEFG"` with an empty buffer, together
with the expected strings of `TestEncoding_Decode`. -/
theorem C2_decode_digits_witness :
    ((254 : Nat) < 2 ^ 32 ∧ 10 ≤ (bytes "0123456789ABCDEF").length
      ∧ (bytes "0123456789ABCDEF").length ≤ 64
      ∧ writtenCount (bytes "0123456789ABCDEF").length
          (NewEncoding (bytes "0123456789ABCDEF")).MaxChars.toNat 254 true
        ≤ (bytes "xxxxxxx").length
      ∧ (NewEncoding (bytes "ABCDEFG")).MaxChars = 0)
    ∧ (∃ out, (NewEncoding (bytes "0123456789ABCDEF")).Decode (bytes "xxxxxxx") 254 true
          = some out
        ∧ out.length = (bytes "xxxxxxx").length
        ∧ (∀ k, k < writtenCount (bytes "0123456789ABCDEF").length
              (NewEncoding (bytes "0123456789ABCDEF")).MaxChars.toNat 254 true →
            out[k]? = (bytes "0123456789ABCDEF")[254
              / (bytes "0123456789ABCDEF").length ^ k % (bytes "0123456789ABCDEF").length]?)
        ∧ (∀ k, writtenCount (bytes "0123456789ABCDEF").length
              (NewEncoding (bytes "0123456789ABCDEF")).MaxChars.toNat 254 true ≤ k →
            out[k]? = (bytes "xxxxxxx")[k]?))
    ∧ (NewEncoding (bytes "ABCDEFG")).Decode [] 254 true = some []
    ∧ (NewEncoding (bytes "0123456789ABCDEF")).Decode [0, 0, 0, 0, 0, 0, 0] 254 true
        = some (bytes "EF00000")
    ∧ (NewEncoding (bytes "0123456789ABCDEF")).Decode [0, 0] 255 false = some (bytes "FF")
    ∧ StdEncoding.Decode [0, 0, 0, 0, 0, 0] 1600 true = some (bytes "  A   ") :=
  ⟨⟨by decide, by decide, by decide, by decide, by decide⟩,
   (C2_decode_digits (bytes "0123456789ABCDEF") 254 (by decide) true (bytes "xxxxxxx")).1
     (by decide) (by decide) (by decide),
   (C2_decode_digits (bytes "ABCDEFG") 254 (by decide) true []).2 (by decide),
   by decide, by decide, by decide⟩

/-- C3. Under a valid charset of ASCII symbols, for a string `s` of at most `MaxChars()` charset symbols, `Decode dst (EncodeToUint32 s) false`
emits exactly `s` without its whole trailing run of the zero symbol
`charset[0]` (that many positions are written, the rest of `dst` is kept); the
emitted string is `s` itself when `s` is empty or does not end with
`charset[0]`. -/
theorem C3_roundtrip_strip (cs : List Byte) (hcs : IsAscii cs)
    (h1 : 10 ≤ cs.length) (h2 : cs.length ≤ 64) (s : List Byte)
    (hlen : (s.length : Int) ≤ (NewEncoding cs).MaxChars) (hmem : ∀ b ∈ s, b ∈ cs) :
    ∃ v, (NewEncoding cs).EncodeToUint32 s = some v
      ∧ writtenCount cs.length (NewEncoding cs).MaxChars.toNat v false
          = (stripZero cs s).length
      ∧ (∀ dst : List Byte, (stripZero cs s).length ≤ dst.length →
          (NewEncoding cs).Decode dst v false
            = some (stripZero cs s ++ dst.drop (stripZero cs s).length))
      ∧ ((∀ hne : s ≠ [], some (s.getLast hne) ≠ cs[0]?) → stripZero cs s = s) := by
  rw [MaxChars_valid cs h1 h2] at hlen ⊢
  have hlen' : s.length ≤ maxCharsOf cs.length := by omega
  have hw := writtenCount_encoded cs h1 s hlen' hmem
  refine ⟨_, EncodeToUint32_ascii cs hcs h1 h2 s hlen' hmem, ?_, ?_, ?_⟩
  · rw [Int.toNat_ofNat]; exact hw
  · intro dst hdst
    rw [Decode_valid cs h1 h2 _ false dst (by rw [hw]; exact hdst), hw,
      digitSymbols_encoded_strip cs h1 s hmem]
  · intro h
    unfold stripZero
    rw [List.rdropWhile_eq_self_iff]
    intro hne
    simpa using h hne

/-- C3 at the standard charset and the string `"  A"` of the test: 1600 is
decoded back to `"  A"`; and at `"A  "`, whose two trailing spaces are lost. -/
theorem C3_roundtrip_strip_witness :
    (IsAscii stdCharSet ∧ 10 ≤ stdCharSet.length ∧ stdCharSet.length ≤ 64
      ∧ ((bytes "  A").length : Int) ≤ (NewEncoding stdCharSet).MaxChars
      ∧ ∀ b ∈ bytes "  A", b ∈ stdCharSet)
    ∧ (∃ v, (NewEncoding stdCharSet).EncodeToUint32 (bytes "  A") = some v
      ∧ writtenCount stdCharSet.length (NewEncoding stdCharSet).MaxChars.toNat v false
          = (stripZero stdCharSet (bytes "  A")).length
      ∧ (∀ dst : List Byte, (stripZero stdCharSet (bytes "  A")).length ≤ dst.length →
          (NewEncoding stdCharSet).Decode dst v false
            = some (stripZero stdCharSet (bytes "  A")
                ++ dst.drop (stripZero stdCharSet (bytes "  A")).length))
      ∧ ((∀ hne : bytes "  A" ≠ [], some ((bytes "  A").getLast hne) ≠ stdCharSet[0]?) →
          stripZero stdCharSet (bytes "  A") = bytes "  A"))
    ∧ StdEncoding.EncodeToUint32 (bytes "  A") = some 1600
    ∧ StdEncoding.Decode [0, 0, 0] 1600 false = some (bytes "  A")
    ∧ stripZero stdCharSet (bytes "A  ") = bytes "A"
    ∧ StdEncoding.EncodeToUint32 (bytes "A  ") = some 1
    ∧ StdEncoding.Decode [0, 0, 0] 1 false = some [65, 0, 0] :=
  ⟨⟨by decide, by decide, by decide, by decide, by decide⟩,
   C3_roundtrip_strip stdCharSet (by decide) (by decide) (by decide) (bytes "  A")
     (by decide) (by decide),
   by decide, by decide, by decide, by decide, by decide⟩

/-- C4. Under a valid charset of ASCII symbols, for a string `s` of at most `MaxChars()` charset symbols and a buffer of length `MaxChars()`,
`Decode dst (EncodeToUint32 s) true` yields `s` followed by
`MaxChars() - len(s)` copies of the zero symbol `charset[0]`. -/
theorem C4_roundtrip_zerofill (cs : List Byte) (hcs : IsAscii cs)
    (h1 : 10 ≤ cs.length) (h2 : cs.length ≤ 64) (s : List Byte)
    (hlen : (s.length : Int) ≤ (NewEncoding cs).MaxChars) (hmem : ∀ b ∈ s, b ∈ cs)
    (dst : List Byte) (hdst : (dst.length : Int) = (NewEncoding cs).MaxChars) :
    ∃ v, (NewEncoding cs).EncodeToUint32 s = some v
      ∧ (NewEncoding cs).Decode dst v true
          = some (s ++ List.replicate ((NewEncoding cs).MaxChars.toNat - s.length)
              (cs.getD 0 0)) := by
  rw [MaxChars_valid cs h1 h2] at hlen hdst ⊢
  have hlen' : s.length ≤ maxCharsOf cs.length := by omega
  have hdst' : dst.length = maxCharsOf cs.length := by omega
  refine ⟨_, EncodeToUint32_ascii cs hcs h1 h2 s hlen' hmem, ?_⟩
  have hw : ∀ c, writtenCount cs.length (maxCharsOf cs.length) c true
      = maxCharsOf cs.length := fun c => by simp [writtenCount]
  rw [Decode_valid cs h1 h2 _ true dst (by rw [hw]; omega), hw,
    digitSymbols_encoded_pad cs h1 s hmem _ hlen', Int.toNat_ofNat,
    List.drop_eq_nil_of_le (by omega), List.append_nil]
  rfl

/-- C4 at the standard charset and the string `" A"` of the test: 40 is decoded
to `" A    "`. -/
theorem C4_roundtrip_zerofill_witness :
    (IsAscii stdCharSet ∧ 10 ≤ stdCharSet.length ∧ stdCharSet.length ≤ 64
      ∧ ((bytes " A").length : Int) ≤ (NewEncoding stdCharSet).MaxChars
      ∧ (∀ b ∈ bytes " A", b ∈ stdCharSet)
      ∧ ((bytes "xxxxxx").length : Int) = (NewEncoding stdCharSet).MaxChars)
    ∧ (∃ v, (NewEncoding stdCharSet).EncodeToUint32 (bytes " A") = some v
      ∧ (NewEncoding stdCharSet).Decode (bytes "xxxxxx") v true
          = some (bytes " A" ++ List.replicate
              ((NewEncoding stdCharSet).MaxChars.toNat - (bytes " A").length)
              (stdCharSet.getD 0 0)))
    ∧ StdEncoding.EncodeToUint32 (bytes " A") = some 40
    ∧ StdEncoding.Decode (bytes "xxxxxx") 40 true = some (bytes " A    ") :=
  ⟨⟨by decide, by decide, by decide, by decide, by decide, by decide⟩,
   C4_roundtrip_zerofill stdCharSet (by decide) (by decide) (by decide) (bytes " A")
     (by decide) (by decide) (bytes "xxxxxx") (by decide),
   by decide, by decide⟩

/-- C5 (amended to ASCII charsets and to codes below `L ^ MaxChars()`). Under a
valid, duplicate-free ASCII charset of length `L`, for every code
`c < L ^ MaxChars()` and every buffer of at least `MaxChars()` bytes,
`EncodeToUint32` applied to the `MaxChars()` symbols that `Decode dst c true`
writes returns `c`. -/
theorem C5_decode_encode (cs : List Byte) (hcs : IsAscii cs) (hnd : cs.Nodup)
    (h1 : 10 ≤ cs.length) (h2 : cs.length ≤ 64) (c : Nat)
    (hc : c < cs.length ^ (NewEncoding cs).MaxChars.toNat)
    (dst : List Byte) (hdst : (NewEncoding cs).MaxChars ≤ (dst.length : Int)) :
    ∃ out, (NewEncoding cs).Decode dst c true = some out
      ∧ (NewEncoding cs).EncodeToUint32 (out.take (NewEncoding cs).MaxChars.toNat)
          = some c := by
  rw [MaxChars_valid cs h1 h2] at hc hdst ⊢
  rw [Int.toNat_ofNat] at hc ⊢
  obtain ⟨out, hout, htake⟩ := Decode_zerofill_take cs h1 h2 c dst (by omega)
  refine ⟨out, hout, ?_⟩
  rw [htake, EncodeToUint32_digitSymbols cs hcs hnd h1 h2 c, Nat.mod_eq_of_lt hc]

/-- C5 at the standard charset and the code 1600, and at the largest code that
survives, `40 ^ 6 - 1`. -/
theorem C5_decode_encode_witness :
    (IsAscii stdCharSet ∧ stdCharSet.Nodup ∧ 10 ≤ stdCharSet.length
      ∧ stdCharSet.length ≤ 64
      ∧ 1600 < stdCharSet.length ^ (NewEncoding stdCharSet).MaxChars.toNat
      ∧ (NewEncoding stdCharSet).MaxChars ≤ ((bytes "xxxxxx").length : Int))
    ∧ (∃ out, (NewEncoding stdCharSet).Decode (bytes "xxxxxx") 1600 true = some out
      ∧ (NewEncoding stdCharSet).EncodeToUint32
          (out.take (NewEncoding stdCharSet).MaxChars.toNat) = some 1600)
    ∧ StdEncoding.Decode (bytes "xxxxxx") 4095999999 true = some (bytes "//////")
    ∧ StdEncoding.EncodeToUint32 (bytes "//////") = some 4095999999 :=
  ⟨⟨by decide, by decide, by decide, by decide, by decide, by decide⟩,
   C5_decode_encode stdCharSet (by decide) (by decide) (by decide) (by decide) 1600
     (by decide) (bytes "xxxxxx") (by decide),
   by decide, by decide⟩

/-- C5 as stated, for every 32-bit code and every duplicate-free valid charset,
fails twice. Under the standard charset the code `40 ^ 6 = 4096000000` is a
`uint32`, is decoded to six spaces and is encoded back to 0. Under the
duplicate-free charset `"0123456789é"` the code 10 is decoded to the byte
`0xC3` followed by seven `'0'`, which `EncodeToUint32` turns into 0. -/
theorem C5_counterexample :
    (stdCharSet.Nodup ∧ 10 ≤ stdCharSet.length ∧ stdCharSet.length ≤ 64
      ∧ (4096000000 : Nat) < 2 ^ 32
      ∧ StdEncoding.MaxChars = 6
      ∧ StdEncoding.Decode (bytes "xxxxxx") 4096000000 true = some (bytes "      ")
      ∧ StdEncoding.EncodeToUint32 (bytes "      ") = some 0
      ∧ ¬ ∃ out, StdEncoding.Decode (bytes "xxxxxx") 4096000000 true = some out
          ∧ StdEncoding.EncodeToUint32 (out.take StdEncoding.MaxChars.toNat)
              = some 4096000000)
    ∧ (accentCharSet.Nodup ∧ 10 ≤ accentCharSet.length ∧ accentCharSet.length ≤ 64
      ∧ (10 : Nat) < 2 ^ 32
      ∧ (NewEncoding accentCharSet).MaxChars = 8
      ∧ (NewEncoding accentCharSet).Decode (bytes "xxxxxxxx") 10 true
          = some (0xC3 :: bytes "0000000")
      ∧ (NewEncoding accentCharSet).EncodeToUint32 (0xC3 :: bytes "0000000") = some 0
      ∧ ¬ ∃ out, (NewEncoding accentCharSet).Decode (bytes "xxxxxxxx") 10 true = some out
          ∧ (NewEncoding accentCharSet).EncodeToUint32
              (out.take (NewEncoding accentCharSet).MaxChars.toNat) = some 10) := by
  refine ⟨⟨by decide, by decide, by decide, by decide, by decide, by decide, by decide, ?_⟩,
    ⟨by decide, by decide, by decide, by decide, by decide, by decide, by decide, ?_⟩⟩
  · rintro ⟨out, ho, he⟩
    have h0 : StdEncoding.Decode (bytes "xxxxxx") 4096000000 true
        = some (bytes "      ") := by decide
    rw [h0] at ho
    have hout : out = bytes "      " := (Option.some.inj ho).symm
    subst hout
    revert he
    decide
  · rintro ⟨out, ho, he⟩
    have h0 : (NewEncoding accentCharSet).Decode (bytes "xxxxxxxx") 10 true
        = some (0xC3 :: bytes "0000000") := by decide
    rw [h0] at ho
    have hout : out = 0xC3 :: bytes "0000000" := (Option.some.inj ho).symm
    subst hout
    revert he
    decide

/-- C6. For a charset of length `L` in `10..64`, `MaxChars()`, the number of
entries of `powermap32[L]` less one, is the largest `n` with `L ^ n ≤ 2^32 - 1`:
`L ^ MaxChars()` fits and every `n` whose power fits is at most `MaxChars()`.
The function `MaxChars` of package `nctype` returns the same number. -/
theorem C6_maxChars_largest (cs : List Byte) (h1 : 10 ≤ cs.length) (h2 : cs.length ≤ 64) :
    (NewEncoding cs).MaxChars = ((powermap32 cs.length).length : Int) - 1
      ∧ nctype.MaxChars cs = (NewEncoding cs).MaxChars
      ∧ 0 ≤ (NewEncoding cs).MaxChars
      ∧ cs.length ^ (NewEncoding cs).MaxChars.toNat ≤ 2 ^ 32 - 1
      ∧ ∀ n : Nat, cs.length ^ n ≤ 2 ^ 32 - 1 → (n : Int) ≤ (NewEncoding cs).MaxChars := by
  obtain ⟨_, _, hle, hlt⟩ := powermap32_shape cs.length h1 h2
  have hlen := powermap32_length cs.length h1 h2
  unfold maxUint32 at hle hlt
  rw [MaxChars_valid cs h1 h2]
  refine ⟨by rw [hlen]; push_cast; omega, ?_, by omega, ?_, ?_⟩
  · unfold nctype.MaxChars
    rw [hlen]
    push_cast
    omega
  · rw [Int.toNat_ofNat]
    omega
  · intro n hn
    by_contra hgt
    have hgt' : maxCharsOf cs.length + 1 ≤ n := by omega
    have := Nat.pow_le_pow_right (by omega : 0 < cs.length) hgt'
    omega

/-- C6 at the standard charset, with the values of the tests: 6 for the default
set and for a set of 40 symbols, 5 for a set of 41 symbols, 7 for the
hexadecimal set. -/
theorem C6_maxChars_largest_witness :
    (10 ≤ stdCharSet.length ∧ stdCharSet.length ≤ 64)
    ∧ ((NewEncoding stdCharSet).MaxChars = ((powermap32 stdCharSet.length).length : Int) - 1
      ∧ nctype.MaxChars stdCharSet = (NewEncoding stdCharSet).MaxChars
      ∧ 0 ≤ (NewEncoding stdCharSet).MaxChars
      ∧ stdCharSet.length ^ (NewEncoding stdCharSet).MaxChars.toNat ≤ 2 ^ 32 - 1
      ∧ ∀ n : Nat, stdCharSet.length ^ n ≤ 2 ^ 32 - 1 →
          (n : Int) ≤ (NewEncoding stdCharSet).MaxChars)
    ∧ StdEncoding.MaxChars = 6
    ∧ nctype.MaxChars (bytes "1234567890123456789012345678901234567890") = 6
    ∧ nctype.MaxChars (bytes "12345678901234567890123456789012345678901") = 5
    ∧ (NewEncoding (bytes "0123456789ABCDEF")).MaxChars = 7
    ∧ powermap32 40 = [1, 40, 1600, 64000, 2560000, 102400000, 4096000000] :=
  ⟨⟨by decide, by decide⟩,
   C6_maxChars_largest stdCharSet (by decide) (by decide),
   by decide, by decide, by decide, by decide, by decide⟩

/-- C7. For `L` in `10..64`, every sequence of at most `MaxChars(L)` digits
below `L` has a positional value of at most `2^32 - 1`; hence on every input
that `Encode` accepts (at most `MaxChars()` bytes, each found in the charset)
the 32-bit accumulation of the loop ends on the natural-number sum of
`digit[i] * L ^ i`, and `EncodeToUint32` returns it. -/
theorem C7_no_overflow (L : Nat) (h1 : 10 ≤ L) (h2 : L ≤ 64) :
    (∀ ds : List Nat, ds.length ≤ maxCharsOf L → (∀ d ∈ ds, d < L) →
        positional L ds ≤ 2 ^ 32 - 1)
    ∧ (∀ cs src : List Byte, cs.length = L →
        (src.length : Int) ≤ (NewEncoding cs).MaxChars →
        (∀ b ∈ src, stringsIndex cs (runeString b) ≠ -1) →
        encodeLoop cs src 0 0 = some (some (positional L (src.map (digitOf cs))))
          ∧ (NewEncoding cs).EncodeToUint32 src
              = some (positional L (src.map (digitOf cs)))
          ∧ positional L (src.map (digitOf cs)) ≤ 2 ^ 32 - 1) := by
  have hA : ∀ ds : List Nat, ds.length ≤ maxCharsOf L → (∀ d ∈ ds, d < L) →
      positional L ds ≤ 2 ^ 32 - 1 := by
    intro ds hlen hds
    rw [positional_eq_ofDigits]
    have := ofDigits_le_maxUint32 L h1 h2 ds hlen hds
    unfold maxUint32 at this
    omega
  refine ⟨hA, ?_⟩
  intro cs src hL hlen hf
  subst hL
  rw [MaxChars_valid cs h1 h2] at hlen
  have hlen' : src.length ≤ maxCharsOf cs.length := by omega
  have hbound := hA (src.map (digitOf cs)) (by rw [List.length_map]; exact hlen')
    (by
      intro d hd
      obtain ⟨b, hb, rfl⟩ := List.mem_map.mp hd
      exact digitOf_lt cs b (hf b hb))
  refine ⟨?_, ?_, hbound⟩
  · rw [encodeLoop_found cs h1 h2 src 0 0 (by norm_num) hf (by omega)]
    rw [positional_eq_ofDigits] at hbound ⊢
    simp only [pow_zero, one_mul, zero_add]
    rw [Nat.mod_eq_of_lt (by omega)]
  · rw [positional_eq_ofDigits]
    exact EncodeToUint32_found cs h1 h2 src hlen' hf

/-- C7 at `L = 40` with the six largest digits, whose value `40 ^ 6 - 1` is the
largest the standard charset reaches, and at the string `"//////"`. -/
theorem C7_no_overflow_witness :
    (10 ≤ 40 ∧ 40 ≤ 64 ∧ [39, 39, 39, 39, 39, 39].length ≤ maxCharsOf 40
      ∧ (∀ d ∈ [39, 39, 39, 39, 39, 39], d < 40)
      ∧ stdCharSet.length = 40
      ∧ ((bytes "//////").length : Int) ≤ (NewEncoding stdCharSet).MaxChars
      ∧ ∀ b ∈ bytes "//////", stringsIndex stdCharSet (runeString b) ≠ -1)
    ∧ positional 40 [39, 39, 39, 39, 39, 39] ≤ 2 ^ 32 - 1
    ∧ (encodeLoop stdCharSet (bytes "//////") 0 0
          = some (some (positional 40 ((bytes "//////").map (digitOf stdCharSet))))
        ∧ (NewEncoding stdCharSet).EncodeToUint32 (bytes "//////")
            = some (positional 40 ((bytes "//////").map (digitOf stdCharSet)))
        ∧ positional 40 ((bytes "//////").map (digitOf stdCharSet)) ≤ 2 ^ 32 - 1)
    ∧ positional 40 [39, 39, 39, 39, 39, 39] = 4095999999
    ∧ StdEncoding.EncodeToUint32 (bytes "//////") = some 4095999999 :=
  ⟨⟨by decide, by decide, by decide, by decide, by decide, by decide, by decide⟩,
   (C7_no_overflow 40 (by decide) (by decide)).1 [39, 39, 39, 39, 39, 39]
     (by decide) (by decide),
   (C7_no_overflow 40 (by decide) (by decide)).2 stdCharSet (bytes "//////")
     (by decide) (by decide) (by decide),
   by decide, by decide⟩

/-- C8. `NewEncoding(cs).MaxChars()` is 0 exactly when `len(cs) < 10` or
`len(cs) > 64`, and the encoding then holds the empty charset; a charset of 10
to 64 bytes is kept unchanged and has `MaxChars() ≥ 1`, namely 9 for length 10
and 5 for length 64. -/
theorem C8_newEncoding_validity (cs : List Byte) :
    ((NewEncoding cs).MaxChars = 0 ↔ (cs.length < 10 ∨ cs.length > 64))
    ∧ ((cs.length < 10 ∨ cs.length > 64) → (NewEncoding cs).charset = [])
    ∧ (10 ≤ cs.length → cs.length ≤ 64 →
        (NewEncoding cs).charset = cs ∧ 1 ≤ (NewEncoding cs).MaxChars)
    ∧ (cs.length = 10 → (NewEncoding cs).MaxChars = 9)
    ∧ (cs.length = 64 → (NewEncoding cs).MaxChars = 5) := by
  have hvalid : 10 ≤ cs.length → cs.length ≤ 64 →
      (NewEncoding cs).charset = cs ∧ 1 ≤ (NewEncoding cs).MaxChars := by
    intro h1 h2
    refine ⟨NewEncoding_charset cs h1 h2, ?_⟩
    rw [MaxChars_valid cs h1 h2]
    have := (powermap32_shape cs.length h1 h2).2.1
    omega
  refine ⟨⟨?_, fun h => MaxChars_invalid cs (by omega)⟩,
    fun h => NewEncoding_charset_invalid cs (by omega), hvalid, ?_, ?_⟩
  · intro h0
    by_contra hv
    have := (hvalid (by omega) (by omega)).2
    omega
  · intro h
    rw [MaxChars_valid cs (by omega) (by omega), h]
    decide
  · intro h
    rw [MaxChars_valid cs (by omega) (by omega), h]
    decide

/-- C8 at the charset `"ABCDEFG"` of the test, which is dropped, and at the
standard charset, which is kept. -/
theorem C8_newEncoding_validity_witness :
    ((bytes "ABCDEFG").length < 10 ∨ (bytes "ABCDEFG").length > 64)
    ∧ (NewEncoding (bytes "ABCDEFG")).MaxChars = 0
    ∧ (NewEncoding (bytes "ABCDEFG")).charset = []
    ∧ (10 ≤ stdCharSet.length ∧ stdCharSet.length ≤ 64)
    ∧ ((NewEncoding stdCharSet).charset = stdCharSet ∧ 1 ≤ (NewEncoding stdCharSet).MaxChars)
    ∧ (NewEncoding (bytes "0123456789")).MaxChars = 9 :=
  ⟨by decide,
   (C8_newEncoding_validity (bytes "ABCDEFG")).1.mpr (by decide),
   (C8_newEncoding_validity (bytes "ABCDEFG")).2.1 (by decide),
   ⟨by decide, by decide⟩,
   (C8_newEncoding_validity stdCharSet).2.2.1 (by decide) (by decide),
   (C8_newEncoding_validity (bytes "0123456789")).2.2.2.1 (by decide)⟩

/-- C9. For an encoding built from a charset of ASCII symbols, valid or not, and
a `src` that is longer than `MaxChars()` or holds a byte that does not occur in
the charset, `EncodeToUint32 src` returns 0: the failure is silent. -/
theorem C9_silent_zero (cs : List Byte) (hcs : IsAscii cs) (src : List Byte)
    (h : (src.length : Int) > (NewEncoding cs).MaxChars ∨ ∃ b ∈ src, b ∉ cs) :
    (NewEncoding cs).EncodeToUint32 src = some 0 := by
  apply EncodeToUint32_of_unchanged
  apply Encode_rejected cs src
  rcases h with h | ⟨b, hb, hb'⟩
  · exact Or.inl h
  · by_cases hv : cs.length < 10 ∨ 64 < cs.length
    · left
      rw [MaxChars_invalid cs hv]
      have := List.length_pos_of_mem hb
      omega
    · right
      rw [NewEncoding_charset cs (by omega) (by omega)]
      exact ⟨b, hb, by rw [stringsIndex_ascii cs hcs b, if_neg hb']⟩

/-- C9 at the inputs of the tests: `"1234567"` under the standard charset and
`"FG"` under the hexadecimal charset; and at the invalid charset `"ABCDEFG"`. -/
theorem C9_silent_zero_witness :
    (IsAscii stdCharSet
      ∧ ((bytes "1234567").length : Int) > (NewEncoding stdCharSet).MaxChars
      ∧ IsAscii hexCharSet
      ∧ (∃ b ∈ bytes "FG", b ∉ hexCharSet)
      ∧ IsAscii (bytes "ABCDEFG")
      ∧ ((bytes "A").length : Int) > (NewEncoding (bytes "ABCDEFG")).MaxChars)
    ∧ (NewEncoding stdCharSet).EncodeToUint32 (bytes "1234567") = some 0
    ∧ (NewEncoding hexCharSet).EncodeToUint32 (bytes "FG") = some 0
    ∧ (NewEncoding (bytes "ABCDEFG")).EncodeToUint32 (bytes "A") = some 0 :=
  ⟨⟨by decide, by decide, by decide, by decide, by decide, by decide⟩,
   C9_silent_zero stdCharSet (by decide) (bytes "1234567") (Or.inl (by decide)),
   C9_silent_zero hexCharSet (by decide) (bytes "FG") (Or.inr (by decide)),
   C9_silent_zero (bytes "ABCDEFG") (by decide) (bytes "A") (Or.inl (by decide))⟩

/-- C10. Under an active ASCII charset of 10 to 64 bytes, `FromString s` returns
an error exactly when `len(s) > MaxChars()` or some byte of `s` does not occur
in the charset; otherwise it returns, without error, the Numericode of length
`len(s)` whose `i`-th byte is the first index of `s[i]` in the charset. -/
theorem C10_fromString (cs : List Byte) (hcs : IsAscii cs)
    (h1 : 10 ≤ cs.length) (h2 : cs.length ≤ 64) (s : List Byte) :
    ((∃ err, nctype.FromString cs s = .error err)
        ↔ ((s.length : Int) > nctype.MaxChars cs ∨ ∃ b ∈ s, b ∉ cs))
    ∧ (¬ ((s.length : Int) > nctype.MaxChars cs ∨ ∃ b ∈ s, b ∉ cs) →
        ∃ n, nctype.FromString cs s = .ok n
          ∧ n.length = s.length
          ∧ n.map Fin.val = s.map (fun b => cs.indexOf b)) := by
  have hok : ¬ ((s.length : Int) > nctype.MaxChars cs ∨ ∃ b ∈ s, b ∉ cs) →
      ∃ n, nctype.FromString cs s = .ok n
        ∧ n.length = s.length
        ∧ n.map Fin.val = s.map (fun b => cs.indexOf b) := by
    intro h
    push_neg at h
    obtain ⟨hlen, hmem⟩ := h
    refine ⟨s.map (fun b => Fin.ofNat (cs.indexOf b)), ?_, by simp, ?_⟩
    · unfold nctype.FromString
      rw [if_neg (by omega), fromStringLoop_ok cs hcs s 0 [] hmem]
      rfl
    · rw [List.map_map]
      apply List.map_congr_left
      intro b hb
      have hlt : cs.indexOf b < cs.length := List.indexOf_lt_length.mpr (hmem b hb)
      show cs.indexOf b % 256 = cs.indexOf b
      omega
  refine ⟨⟨?_, ?_⟩, hok⟩
  · rintro ⟨err, herr⟩
    by_contra h
    obtain ⟨n, hn, _⟩ := hok h
    rw [hn] at herr
    cases herr
  · intro h
    unfold nctype.FromString
    by_cases hlen : (s.length : Int) > nctype.MaxChars cs
    · exact ⟨_, if_pos hlen⟩
    · rw [if_neg hlen]
      rcases h with h | h
      · exact absurd h hlen
      · obtain ⟨j, hj⟩ := fromStringLoop_error cs hcs s 0 [] h
        exact ⟨_, hj⟩

/-- C10 at the default charset and the string `"CODE"`, together with the
rejected and accepted strings of `TestNumericode_FromString`. -/
theorem C10_fromString_witness :
    (IsAscii nctype.DefaultCharSet ∧ 10 ≤ nctype.DefaultCharSet.length
      ∧ nctype.DefaultCharSet.length ≤ 64
      ∧ ¬ (((bytes "CODE").length : Int) > nctype.MaxChars nctype.DefaultCharSet
          ∨ ∃ b ∈ bytes "CODE", b ∉ nctype.DefaultCharSet))
    ∧ (∃ n, nctype.FromString nctype.DefaultCharSet (bytes "CODE") = .ok n
        ∧ n.length = (bytes "CODE").length
        ∧ n.map Fin.val = (bytes "CODE").map (fun b => nctype.DefaultCharSet.indexOf b))
    ∧ nctype.FromString nctype.DefaultCharSet (bytes "CODE") = .ok [3, 15, 4, 5]
    ∧ nctype.FromString nctype.DefaultCharSet (bytes "A") = .ok [1]
    ∧ nctype.FromString nctype.DefaultCharSet (bytes "      ") = .ok [0, 0, 0, 0, 0, 0]
    ∧ nctype.FromString nctype.DefaultCharSet (bytes "LARGECODE")
        = .error (.invalidLength 9)
    ∧ nctype.FromString nctype.DefaultCharSet (bytes "Invalid code")
        = .error (.invalidLength 12)
    ∧ nctype.FromString nctype.DefaultCharSet (bytes "inval")
        = .error (.invalidCharacter 0)
    ∧ nctype.FromString nctype.DefaultCharSet (bytes "       ")
        = .error (.invalidLength 7) :=
  ⟨⟨by decide, by decide, by decide, by decide⟩,
   (C10_fromString nctype.DefaultCharSet (by decide) (by decide) (by decide)
     (bytes "CODE")).2 (by decide),
   by decide, by decide, by decide, by decide, by decide, by decide, by decide⟩

/-- C11. For a non-empty string `s` that `FromString` accepts under an active
charset of ASCII symbols, of length `L`, `ToUint32` returns, with a nil error,
the sum of `pos(s[i]) * L ^ i`, `pos` being the first index in the charset, and
`Value` returns the same number. -/
theorem C11_fromString_value (cs : List Byte) (hcs : IsAscii cs) (s : List Byte)
    (hne : s ≠ []) (n : nctype.Numericode) (hn : nctype.FromString cs s = .ok n) :
    nctype.ToUint32 cs n
        = some (.ok (positional cs.length (s.map (fun b => cs.indexOf b))))
      ∧ nctype.Value cs n
        = some (positional cs.length (s.map (fun b => cs.indexOf b))) := by
  obtain ⟨_, _, hf, _⟩ := FromString_accepted cs s n hn
  have hto := ToUint32_accepted cs s hne n hn
  rw [← positional_eq_ofDigits,
    map_digitOf_ascii cs hcs s (fun b hb => mem_of_found cs hcs b (hf b hb))] at hto
  exact ⟨hto, Value_of_ToUint32 cs n _ hto⟩

/-- C11 at the default charset and the string `"CODE"`, together with the values
of `TestNumericode` and, under the hexadecimal charset, of
`TestNumericode_OverideCharSet`. -/
theorem C11_fromString_value_witness :
    (bytes "CODE" ≠ []
      ∧ nctype.FromString nctype.DefaultCharSet (bytes "CODE") = .ok [3, 15, 4, 5]
      ∧ IsAscii nctype.DefaultCharSet)
    ∧ (nctype.ToUint32 nctype.DefaultCharSet [3, 15, 4, 5]
          = some (.ok (positional nctype.DefaultCharSet.length
              ((bytes "CODE").map (fun b => nctype.DefaultCharSet.indexOf b))))
        ∧ nctype.Value nctype.DefaultCharSet [3, 15, 4, 5]
          = some (positional nctype.DefaultCharSet.length
              ((bytes "CODE").map (fun b => nctype.DefaultCharSet.indexOf b))))
    ∧ positional nctype.DefaultCharSet.length
        ((bytes "CODE").map (fun b => nctype.DefaultCharSet.indexOf b)) = 327003
    ∧ nctype.ToUint32 nctype.DefaultCharSet [1] = some (.ok 1)
    ∧ nctype.Value nctype.DefaultCharSet [3, 15, 4, 5] = some 327003
    ∧ nctype.FromString nctype.DefaultCharSet (bytes "//////")
        = .ok [39, 39, 39, 39, 39, 39]
    ∧ nctype.Value nctype.DefaultCharSet [39, 39, 39, 39, 39, 39] = some 4095999999
    ∧ nctype.FromString (nctype.OverideCharSet nctype.DefaultCharSet hexCharSet)
        (bytes "FF") = .ok [15, 15]
    ∧ nctype.Value (nctype.OverideCharSet nctype.DefaultCharSet hexCharSet) [15, 15]
        = some 255
    ∧ nctype.FromString (nctype.OverideCharSet nctype.DefaultCharSet hexCharSet)
        (bytes "FFFFFF") = .ok [15, 15, 15, 15, 15, 15]
    ∧ nctype.Value (nctype.OverideCharSet nctype.DefaultCharSet hexCharSet)
        [15, 15, 15, 15, 15, 15] = some 16777215 :=
  ⟨⟨by decide, by decide, by decide⟩,
   C11_fromString_value nctype.DefaultCharSet (by decide) (bytes "CODE") (by decide)
     [3, 15, 4, 5] (by decide),
   by decide, by decide, by decide, by decide, by decide, by decide, by decide, by decide,
   by decide⟩

/-- C12. Under an ASCII charset, every string `s` that `FromString` accepts is
given back by `String`: `FromString(s).String() == s`. -/
theorem C12_fromString_string (cs : List Byte) (hcs : IsAscii cs) (s : List Byte)
    (n : nctype.Numericode) (hn : nctype.FromString cs s = .ok n) :
    nctype.String cs n = some s := by
  obtain ⟨⟨_, h2⟩, _, hf, hmap⟩ := FromString_accepted cs s n hn
  have hmem : ∀ b ∈ s, b ∈ cs := fun b hb => mem_of_found cs hcs b (hf b hb)
  have hmap' : n = s.map (fun b => Fin.ofNat (cs.indexOf b)) := by
    rw [hmap]
    apply List.map_congr_left
    intro b hb
    rw [digitOf_ascii cs hcs b (hmem b hb)]
  unfold nctype.String
  rw [hmap', stringLoop_spec cs hcs (by omega) s [] hmem]
  rfl

/-- C12 at the default charset and the string `"CODE"`, together with the other
strings of the tests. -/
theorem C12_fromString_string_witness :
    (IsAscii nctype.DefaultCharSet
      ∧ nctype.FromString nctype.DefaultCharSet (bytes "CODE") = .ok [3, 15, 4, 5])
    ∧ nctype.String nctype.DefaultCharSet [3, 15, 4, 5] = some (bytes "CODE")
    ∧ nctype.String nctype.DefaultCharSet [1] = some (bytes "A")
    ∧ nctype.FromString nctype.DefaultCharSet (bytes "LOWER") = .ok [12, 15, 23, 5, 18]
    ∧ nctype.String nctype.DefaultCharSet [12, 15, 23, 5, 18] = some (bytes "LOWER")
    ∧ nctype.FromString nctype.DefaultCharSet (bytes "UPPER") = .ok [21, 16, 16, 5, 18]
    ∧ nctype.String nctype.DefaultCharSet [21, 16, 16, 5, 18] = some (bytes "UPPER")
    ∧ nctype.String nctype.DefaultCharSet [39, 39, 39, 39, 39, 39] = some (bytes "//////")
    ∧ nctype.String nctype.DefaultCharSet [0, 0, 0, 0, 0, 0] = some (bytes "      ") :=
  ⟨⟨by decide, by decide⟩,
   C12_fromString_string nctype.DefaultCharSet (by decide) (bytes "CODE") [3, 15, 4, 5]
     (by decide),
   by decide, by decide, by decide, by decide, by decide, by decide, by decide⟩

/-- C13 (amended to digits below `L`). Under a charset of length `L` in
`10..64`, for a non-empty Numericode `n`: `ToUint32` returns an error when
`len(n) > MaxChars()`; otherwise it returns, without error, the natural-number
value `sum of n[i] * L ^ i` reduced modulo `2^32`, which is that value itself,
at most `2^32 - 1`, when every byte of `n` is a digit below `L`. -/
theorem C13_toUint32_exact (cs : List Byte) (h1 : 10 ≤ cs.length) (h2 : cs.length ≤ 64)
    (n : nctype.Numericode) (hne : n ≠ []) :
    ((n.length : Int) > nctype.MaxChars cs →
        nctype.ToUint32 cs n = some (.error .truncation))
    ∧ ((n.length : Int) ≤ nctype.MaxChars cs →
        nctype.ToUint32 cs n
          = some (.ok (positional cs.length (n.map Fin.val) % 2 ^ 32)))
    ∧ ((n.length : Int) ≤ nctype.MaxChars cs → (∀ b ∈ n, b.val < cs.length) →
        nctype.ToUint32 cs n = some (.ok (positional cs.length (n.map Fin.val)))
          ∧ positional cs.length (n.map Fin.val) ≤ 2 ^ 32 - 1) := by
  rw [nctype_MaxChars_valid cs h1 h2, positional_eq_ofDigits]
  refine ⟨fun h => ToUint32_tooLong cs n (by rw [nctype_MaxChars_valid cs h1 h2]; exact h),
    fun h => ToUint32_inRange cs h1 h2 n hne (by omega), ?_⟩
  intro h hd
  have := ToUint32_digits cs h1 h2 n hne (by omega) hd
  unfold maxUint32 at this
  exact ⟨this.1, by omega⟩

/-- C13 at the default charset: the nine bytes of the test are refused, `{1, 1}`
gives 41 and six digits 39 give 4095999999. -/
theorem C13_toUint32_exact_witness :
    (10 ≤ nctype.DefaultCharSet.length ∧ nctype.DefaultCharSet.length ≤ 64
      ∧ ([30, 40, 50, 60, 70, 80, 90, 100, 110] : nctype.Numericode) ≠ []
      ∧ (([30, 40, 50, 60, 70, 80, 90, 100, 110] : nctype.Numericode).length : Int)
          > nctype.MaxChars nctype.DefaultCharSet
      ∧ ([39, 39, 39, 39, 39, 39] : nctype.Numericode) ≠ []
      ∧ (([39, 39, 39, 39, 39, 39] : nctype.Numericode).length : Int)
          ≤ nctype.MaxChars nctype.DefaultCharSet
      ∧ ∀ b ∈ ([39, 39, 39, 39, 39, 39] : nctype.Numericode),
          b.val < nctype.DefaultCharSet.length)
    ∧ nctype.ToUint32 nctype.DefaultCharSet [30, 40, 50, 60, 70, 80, 90, 100, 110]
        = some (.error .truncation)
    ∧ (nctype.ToUint32 nctype.DefaultCharSet [39, 39, 39, 39, 39, 39]
          = some (.ok (positional nctype.DefaultCharSet.length
              (([39, 39, 39, 39, 39, 39] : nctype.Numericode).map Fin.val)))
        ∧ positional nctype.DefaultCharSet.length
            (([39, 39, 39, 39, 39, 39] : nctype.Numericode).map Fin.val) ≤ 2 ^ 32 - 1)
    ∧ nctype.ToUint32 nctype.DefaultCharSet [1, 1] = some (.ok 41)
    ∧ nctype.ToUint32 nctype.DefaultCharSet [39, 39, 39, 39, 39, 39]
        = some (.ok 4095999999) :=
  ⟨⟨by decide, by decide, by decide, by decide, by decide, by decide, by decide⟩,
   (C13_toUint32_exact nctype.DefaultCharSet (by decide) (by decide)
     [30, 40, 50, 60, 70, 80, 90, 100, 110] (by decide)).1 (by decide),
   (C13_toUint32_exact nctype.DefaultCharSet (by decide) (by decide)
     [39, 39, 39, 39, 39, 39] (by decide)).2.2 (by decide) (by decide),
   by decide, by decide⟩

/-- C13 as stated, for any byte values, fails under the default charset on the
six bytes 255: the Numericode is no longer than `MaxChars() = 6`, its value
`255 * (1 + 40 + ... + 40 ^ 5) = 26781538455` exceeds `2^32 - 1`, and `ToUint32`
returns, with a nil error, that value wrapped modulo `2^32`, 1011734679. -/
theorem C13_counterexample :
    ([255, 255, 255, 255, 255, 255] : nctype.Numericode) ≠ []
    ∧ (([255, 255, 255, 255, 255, 255] : nctype.Numericode).length : Int)
        ≤ nctype.MaxChars nctype.DefaultCharSet
    ∧ positional nctype.DefaultCharSet.length
        (([255, 255, 255, 255, 255, 255] : nctype.Numericode).map Fin.val) = 26781538455
    ∧ nctype.ToUint32 nctype.DefaultCharSet [255, 255, 255, 255, 255, 255]
        = some (.ok 1011734679)
    ∧ (26781538455 : Nat) % 2 ^ 32 = 1011734679
    ∧ nctype.ToUint32 nctype.DefaultCharSet [255, 255, 255, 255, 255, 255]
        ≠ some (.ok (positional nctype.DefaultCharSet.length
            (([255, 255, 255, 255, 255, 255] : nctype.Numericode).map Fin.val))) := by
  decide

/-- C14, the code at the failing input. Under the default charset, of length
40 with `MaxChars() = 6`, `FromUint32 4096000000` returns with a nil error the
seven digits `0,0,0,0,0,0,1` of `40 ^ 6`, one more than `MaxChars()`, and
`ToUint32` refuses that Numericode; every byte is a digit below 40. Under the
hexadecimal charset `FromUint32 255` is the two-digit code of `"FF"`. -/
theorem C14_fromUint32_overlong :
    nctype.Reachable nctype.DefaultCharSet
    ∧ (4096000000 : Nat) < 2 ^ 32
    ∧ nctype.MaxChars nctype.DefaultCharSet = 6
    ∧ nctype.FromUint32 nctype.DefaultCharSet 4096000000
        = some (.ok [0, 0, 0, 0, 0, 0, 1])
    ∧ (∀ b ∈ ([0, 0, 0, 0, 0, 0, 1] : nctype.Numericode),
        b.val < nctype.DefaultCharSet.length)
    ∧ ¬ ((([0, 0, 0, 0, 0, 0, 1] : nctype.Numericode).length : Int)
          ≤ nctype.MaxChars nctype.DefaultCharSet)
    ∧ nctype.ToUint32 nctype.DefaultCharSet [0, 0, 0, 0, 0, 0, 1]
        = some (.error .truncation)
    ∧ nctype.FromUint32 hexCharSet 255 = some (.ok [15, 15])
    ∧ nctype.String hexCharSet [15, 15] = some (bytes "FF") :=
  ⟨nctype.Reachable.initial, by decide, by decide, by decide, by decide, by decide,
   by decide, by decide, by decide⟩

/-- C15, the code at the failing input. With the 36-symbol charset of the
example, `Decode dst 1 true` on six zero bytes leaves `"BAAAAA"`, and the
following `Decode dst 1 false` leaves `dst` at `"BAAAAA"`: the positions 1 to 5
keep the byte `'A'` and are not set to 0. -/
theorem C15_decode_no_null_padding :
    (10 ≤ alnumCharSet.length ∧ alnumCharSet.length ≤ 64)
    ∧ (NewEncoding alnumCharSet).MaxChars = 6
    ∧ (NewEncoding alnumCharSet).Decode [0, 0, 0, 0, 0, 0] 1 true = some (bytes "BAAAAA")
    ∧ (NewEncoding alnumCharSet).Decode (bytes "BAAAAA") 1 false = some (bytes "BAAAAA")
    ∧ bytes "BAAAAA" = [66, 65, 65, 65, 65, 65]
    ∧ (NewEncoding alnumCharSet).Decode (bytes "BAAAAA") 1 false
        ≠ some [66, 0, 0, 0, 0, 0] := by
  decide

/-- C16, the code at the failing input. After the valid call
`OverideCharSet("0123456789ABCDEF")` the call `OverideCharSet("01")` leaves the
hexadecimal charset active, not `DefaultCharSet`, and `FromString("0")` has the
value 0. Only from the initial state does the charset stay the default, where
`FromString("0")` has the value 27 of the test. -/
theorem C16_overide_keeps_current :
    nctype.Reachable (nctype.OverideCharSet nctype.DefaultCharSet hexCharSet)
    ∧ ((bytes "01").length < 10 ∨ (bytes "01").length > 64)
    ∧ nctype.OverideCharSet nctype.DefaultCharSet hexCharSet = hexCharSet
    ∧ nctype.OverideCharSet (nctype.OverideCharSet nctype.DefaultCharSet hexCharSet)
        (bytes "01") = hexCharSet
    ∧ nctype.OverideCharSet (nctype.OverideCharSet nctype.DefaultCharSet hexCharSet)
        (bytes "01") ≠ nctype.DefaultCharSet
    ∧ nctype.FromString hexCharSet (bytes "0") = .ok [0]
    ∧ nctype.Value hexCharSet [0] = some 0
    ∧ nctype.OverideCharSet nctype.DefaultCharSet (bytes "01") = nctype.DefaultCharSet
    ∧ nctype.FromString nctype.DefaultCharSet (bytes "0") = .ok [27]
    ∧ nctype.Value nctype.DefaultCharSet [27] = some 27 :=
  ⟨nctype.Reachable.overide _ _ nctype.Reachable.initial, by decide, by decide, by decide,
   by decide, by decide, by decide, by decide, by decide, by decide⟩

/-- C17 (amended to lengths other than 16). For a charset of length `L` in
`10..64` with `L ≠ 16`, the table-driven `MaxChars()`, `len(powermap32[L]) - 1`,
equals `⌊32 / log2 L⌋`, logarithm and division taken in the real numbers. -/
theorem C17_table_matches_formula (cs : List Byte) (h1 : 10 ≤ cs.length)
    (h2 : cs.length ≤ 64) (h16 : cs.length ≠ 16) :
    ⌊(32 : ℝ) / Real.logb 2 (cs.length : ℝ)⌋ = ((powermap32 cs.length).length : ℤ) - 1
      ∧ ⌊(32 : ℝ) / Real.logb 2 (cs.length : ℝ)⌋ = nctype.MaxChars cs
      ∧ ⌊(32 : ℝ) / Real.logb 2 (cs.length : ℝ)⌋ = (NewEncoding cs).MaxChars := by
  obtain ⟨_, _, hle, hlt⟩ := powermap32_shape cs.length h1 h2
  have hne := pow_succ_maxChars_ne cs.length h1 h2 h16
  unfold maxUint32 at hle hlt
  have hfl := floor_log_formula cs.length (maxCharsOf cs.length) (by omega) (by omega)
    (by omega)
  rw [MaxChars_valid cs h1 h2, nctype_MaxChars_valid cs h1 h2, powermap32_length _ h1 h2, hfl]
  refine ⟨?_, rfl, rfl⟩
  push_cast
  omega

/-- C17 at the default charset, of length 40, where both numbers are 6. -/
theorem C17_table_matches_formula_witness :
    (10 ≤ nctype.DefaultCharSet.length ∧ nctype.DefaultCharSet.length ≤ 64
      ∧ nctype.DefaultCharSet.length ≠ 16)
    ∧ (⌊(32 : ℝ) / Real.logb 2 (nctype.DefaultCharSet.length : ℝ)⌋
          = ((powermap32 nctype.DefaultCharSet.length).length : ℤ) - 1
      ∧ ⌊(32 : ℝ) / Real.logb 2 (nctype.DefaultCharSet.length : ℝ)⌋
          = nctype.MaxChars nctype.DefaultCharSet
      ∧ ⌊(32 : ℝ) / Real.logb 2 (nctype.DefaultCharSet.length : ℝ)⌋
          = (NewEncoding nctype.DefaultCharSet).MaxChars)
    ∧ nctype.MaxChars nctype.DefaultCharSet = 6 :=
  ⟨⟨by decide, by decide, by decide⟩,
   C17_table_matches_formula nctype.DefaultCharSet (by decide) (by decide) (by decide),
   by decide⟩

/-- C17 as stated, for every length in `10..64`, fails at `L = 16`: `16 ^ 8` is
`2^32`, so that `⌊32 / log2 16⌋ = 8`, whereas `16 ^ 8` exceeds `2^32 - 1` and
the table stops at `16 ^ 7`, which gives `MaxChars() = 7`. -/
theorem C17_counterexample :
    (10 ≤ hexCharSet.length ∧ hexCharSet.length ≤ 64)
    ∧ ⌊(32 : ℝ) / Real.logb 2 (hexCharSet.length : ℝ)⌋ = 8
    ∧ ((powermap32 hexCharSet.length).length : ℤ) - 1 = 7
    ∧ nctype.MaxChars hexCharSet = 7
    ∧ (NewEncoding hexCharSet).MaxChars = 7
    ∧ ⌊(32 : ℝ) / Real.logb 2 (hexCharSet.length : ℝ)⌋
        ≠ ((powermap32 hexCharSet.length).length : ℤ) - 1 := by
  have hlen : hexCharSet.length = 16 := by decide
  have hfl : ⌊(32 : ℝ) / Real.logb 2 (hexCharSet.length : ℝ)⌋ = 8 := by
    rw [hlen]
    exact floor_log_formula 16 8 (by norm_num) (by norm_num) (by norm_num)
  have htab : ((powermap32 hexCharSet.length).length : ℤ) - 1 = 7 := by decide
  refine ⟨⟨by decide, by decide⟩, hfl, htab, by decide, by decide, ?_⟩
  rw [hfl, htab]
  decide

/-- C18 (amended to ASCII charsets and to symbols other than the zero symbol).
Under an ASCII charset of length `L`, for a non-empty accepted string `s` and a
charset symbol `c` with `len(s) + 1 ≤ MaxChars()`, the string `s + c` is
accepted and its value is the value of `s` plus `pos(c) * L ^ len(s)`:
strictly greater when `c` is not the zero symbol `charset[0]`, and equal when
it is. -/
theorem C18_append_value (cs : List Byte) (hcs : IsAscii cs) (s : List Byte)
    (hne : s ≠ []) (n : nctype.Numericode) (hn : nctype.FromString cs s = .ok n)
    (c : Byte) (hc : c ∈ cs) (hlen : (s.length : Int) + 1 ≤ nctype.MaxChars cs) :
    ∃ n' v v', nctype.FromString cs (s ++ [c]) = .ok n'
      ∧ nctype.Value cs n = some v ∧ nctype.Value cs n' = some v'
      ∧ v' = v + cs.indexOf c * cs.length ^ s.length
      ∧ (some c ≠ cs[0]? → v < v')
      ∧ (some c = cs[0]? → v' = v) := by
  obtain ⟨⟨h1, h2⟩, _, hf, _⟩ := FromString_accepted cs s n hn
  rw [nctype_MaxChars_valid cs h1 h2] at hlen
  have hf' : ∀ b ∈ s ++ [c], stringsIndex cs (runeString b) ≠ -1 := by
    intro b hb
    rcases List.mem_append.mp hb with hb | hb
    · exact hf b hb
    · rw [List.mem_singleton.mp hb]
      exact found_of_mem cs hcs c hc
  have hn' := FromString_of_found cs (s ++ [c]) h1 h2
    (by rw [List.length_append, List.length_singleton]; omega) hf'
  have hv := Value_of_ToUint32 cs n _ (ToUint32_accepted cs s hne n hn)
  have hv' := Value_of_ToUint32 cs _ _ (ToUint32_accepted cs (s ++ [c]) (by simp) _ hn')
  have hsum : Nat.ofDigits cs.length ((s ++ [c]).map (digitOf cs))
      = Nat.ofDigits cs.length (s.map (digitOf cs))
        + cs.indexOf c * cs.length ^ s.length := by
    rw [List.map_append, Nat.ofDigits_append, List.length_map, List.map_singleton,
      Nat.ofDigits_singleton, digitOf_ascii cs hcs c hc, mul_comm]
  have hzero := indexOf_eq_zero_iff cs c hc
  have hpow : 0 < cs.length ^ s.length := Nat.pow_pos (by omega)
  refine ⟨_, _, _, hn', hv, hv', hsum, ?_, ?_⟩
  · intro hcz
    have hidx : cs.indexOf c ≠ 0 := by
      intro h0
      rw [h0] at hzero
      simp at hzero
      exact hcz hzero
    have : 0 < cs.indexOf c * cs.length ^ s.length :=
      Nat.mul_pos (Nat.pos_of_ne_zero hidx) hpow
    omega
  · intro hcz
    have hidx : cs.indexOf c = 0 := by
      have : (cs.indexOf c == 0) = true := by rw [hzero]; simpa using hcz
      simpa using this
    rw [hsum, hidx]
    simp

/-- C18 at the default charset, the string `"A"` and the symbol `'B'`: the value
grows from 1 to 81. -/
theorem C18_append_value_witness :
    (IsAscii nctype.DefaultCharSet ∧ bytes "A" ≠ []
      ∧ nctype.FromString nctype.DefaultCharSet (bytes "A") = .ok [1]
      ∧ (66 : Byte) ∈ nctype.DefaultCharSet
      ∧ ((bytes "A").length : Int) + 1 ≤ nctype.MaxChars nctype.DefaultCharSet)
    ∧ (∃ n' v v', nctype.FromString nctype.DefaultCharSet (bytes "A" ++ [66]) = .ok n'
      ∧ nctype.Value nctype.DefaultCharSet [1] = some v
      ∧ nctype.Value nctype.DefaultCharSet n' = some v'
      ∧ v' = v + nctype.DefaultCharSet.indexOf (66 : Byte)
          * nctype.DefaultCharSet.length ^ (bytes "A").length
      ∧ (some (66 : Byte) ≠ nctype.DefaultCharSet[0]? → v < v')
      ∧ (some (66 : Byte) = nctype.DefaultCharSet[0]? → v' = v))
    ∧ nctype.FromString nctype.DefaultCharSet (bytes "AB") = .ok [1, 2]
    ∧ nctype.Value nctype.DefaultCharSet [1] = some 1
    ∧ nctype.Value nctype.DefaultCharSet [1, 2] = some 81 :=
  ⟨⟨by decide, by decide, by decide, by decide, by decide⟩,
   C18_append_value nctype.DefaultCharSet (by decide) (bytes "A") (by decide) [1]
     (by decide) 66 (by decide) (by decide),
   by decide, by decide, by decide⟩

/-- C18 as stated, for every symbol and every active charset, fails twice. Under
the default charset the accepted string `"A"` and the zero symbol `' '` give
`"A "`, whose value 1 is the value of `"A"`, not a greater one. Under the
charset `"0123456789é"` the accepted string `"1"` and the charset byte `0xC3`
give a string that `FromString` refuses. -/
theorem C18_counterexample :
    (bytes "A" ≠ [] ∧ (32 : Byte) ∈ nctype.DefaultCharSet
      ∧ ((bytes "A").length : Int) + 1 ≤ nctype.MaxChars nctype.DefaultCharSet
      ∧ nctype.FromString nctype.DefaultCharSet (bytes "A") = .ok [1]
      ∧ nctype.FromString nctype.DefaultCharSet (bytes "A" ++ [32]) = .ok [1, 0]
      ∧ nctype.Value nctype.DefaultCharSet [1] = some 1
      ∧ nctype.Value nctype.DefaultCharSet [1, 0] = some 1
      ∧ ¬ ∃ v v', nctype.Value nctype.DefaultCharSet [1] = some v
          ∧ nctype.Value nctype.DefaultCharSet [1, 0] = some v' ∧ v < v')
    ∧ (10 ≤ accentCharSet.length ∧ accentCharSet.length ≤ 64
      ∧ bytes "1" ≠ [] ∧ (0xC3 : Byte) ∈ accentCharSet
      ∧ ((bytes "1").length : Int) + 1 ≤ nctype.MaxChars accentCharSet
      ∧ nctype.FromString accentCharSet (bytes "1") = .ok [1]
      ∧ nctype.FromString accentCharSet (bytes "1" ++ [0xC3])
          = .error (.invalidCharacter 1)) := by
  refine ⟨⟨by decide, by decide, by decide, by decide, by decide, by decide, by decide, ?_⟩,
    by decide⟩
  rintro ⟨v, v', hv, hv', hlt⟩
  have h1 : nctype.Value nctype.DefaultCharSet [1] = some 1 := by decide
  have h2 : nctype.Value nctype.DefaultCharSet [1, 0] = some 1 := by decide
  rw [h1] at hv
  rw [h2] at hv'
  have e1 : v = 1 := (Option.some.inj hv).symm
  have e2 : v' = 1 := (Option.some.inj hv').symm
  omega

/-- C19. Under a valid, duplicate-free charset of ASCII symbols, of length `L`, for every 32-bit code `c` and every buffer of at least
`MaxChars()` bytes, `EncodeToUint32` applied to the `MaxChars()` symbols that
`Decode dst c true` writes returns `c mod L ^ MaxChars()`, which is `c` exactly
when `c < L ^ MaxChars()`. -/
theorem C19_decode_encode_mod (cs : List Byte) (hcs : IsAscii cs) (hnd : cs.Nodup)
    (h1 : 10 ≤ cs.length) (h2 : cs.length ≤ 64) (c : Nat) (_hc : c < 2 ^ 32)
    (dst : List Byte) (hdst : (NewEncoding cs).MaxChars ≤ (dst.length : Int)) :
    ∃ out, (NewEncoding cs).Decode dst c true = some out
      ∧ (NewEncoding cs).EncodeToUint32 (out.take (NewEncoding cs).MaxChars.toNat)
          = some (c % cs.length ^ (NewEncoding cs).MaxChars.toNat)
      ∧ (c % cs.length ^ (NewEncoding cs).MaxChars.toNat = c
          ↔ c < cs.length ^ (NewEncoding cs).MaxChars.toNat) := by
  rw [MaxChars_valid cs h1 h2] at hdst ⊢
  rw [Int.toNat_ofNat]
  obtain ⟨out, hout, htake⟩ := Decode_zerofill_take cs h1 h2 c dst (by omega)
  refine ⟨out, hout, ?_, ?_⟩
  · rw [htake, EncodeToUint32_digitSymbols cs hcs hnd h1 h2 c]
  · exact Nat.mod_eq_iff_lt (Nat.pos_iff_ne_zero.mp (Nat.pow_pos (by omega)))

/-- C19 at the standard charset and the code `40 ^ 6 + 41`, which comes back as
41: the top digit is lost. -/
theorem C19_decode_encode_mod_witness :
    (IsAscii stdCharSet ∧ stdCharSet.Nodup ∧ 10 ≤ stdCharSet.length
      ∧ stdCharSet.length ≤ 64 ∧ (4096000041 : Nat) < 2 ^ 32
      ∧ (NewEncoding stdCharSet).MaxChars ≤ ((bytes "xxxxxx").length : Int))
    ∧ (∃ out, (NewEncoding stdCharSet).Decode (bytes "xxxxxx") 4096000041 true = some out
      ∧ (NewEncoding stdCharSet).EncodeToUint32
          (out.take (NewEncoding stdCharSet).MaxChars.toNat)
          = some (4096000041 % stdCharSet.length ^ (NewEncoding stdCharSet).MaxChars.toNat)
      ∧ (4096000041 % stdCharSet.length ^ (NewEncoding stdCharSet).MaxChars.toNat
            = 4096000041
          ↔ 4096000041 < stdCharSet.length ^ (NewEncoding stdCharSet).MaxChars.toNat))
    ∧ StdEncoding.Decode (bytes "xxxxxx") 4096000041 true = some (bytes "AA    ")
    ∧ StdEncoding.EncodeToUint32 (bytes "AA    ") = some 41
    ∧ 4096000041 % 40 ^ 6 = 41 :=
  ⟨⟨by decide, by decide, by decide, by decide, by decide, by decide⟩,
   C19_decode_encode_mod stdCharSet (by decide) (by decide) (by decide) (by decide)
     4096000041 (by decide) (bytes "xxxxxx") (by decide),
   by decide, by decide, by decide⟩

/-- C20. For an encoding built from a charset of ASCII symbols, valid or not,
every `dst` and every `src` that is longer than `MaxChars()` or holds a byte
that does not occur in the charset, `Encode dst src` returns with every byte of
`dst` unchanged: no partial sum is written and an earlier value is not reset. -/
theorem C20_encode_atomic (cs : List Byte) (hcs : IsAscii cs) (dst src : List Byte)
    (h : (src.length : Int) > (NewEncoding cs).MaxChars ∨ ∃ b ∈ src, b ∉ cs) :
    (NewEncoding cs).Encode dst src = some dst := by
  apply Encode_rejected cs src dst
  rcases h with h | ⟨b, hb, hb'⟩
  · exact Or.inl h
  · by_cases hv : cs.length < 10 ∨ 64 < cs.length
    · left
      rw [MaxChars_invalid cs hv]
      have := List.length_pos_of_mem hb
      omega
    · right
      rw [NewEncoding_charset cs (by omega) (by omega)]
      exact ⟨b, hb, by rw [stringsIndex_ascii cs hcs b, if_neg hb']⟩

/-- C20 at the standard charset with the over-long `"1234567"` and at the
hexadecimal charset with `"FG"`, on buffers that hold an earlier value, one of
them shorter than four bytes. -/
theorem C20_encode_atomic_witness :
    (IsAscii stdCharSet
      ∧ ((bytes "1234567").length : Int) > (NewEncoding stdCharSet).MaxChars
      ∧ IsAscii hexCharSet ∧ ∃ b ∈ bytes "FG", b ∉ hexCharSet)
    ∧ (NewEncoding stdCharSet).Encode [64, 6, 0, 0] (bytes "1234567") = some [64, 6, 0, 0]
    ∧ (NewEncoding hexCharSet).Encode [7, 7] (bytes "FG") = some [7, 7]
    ∧ (NewEncoding hexCharSet).Encode [64, 6, 0, 0] (bytes "FG") = some [64, 6, 0, 0] :=
  ⟨⟨by decide, by decide, by decide, by decide⟩,
   C20_encode_atomic stdCharSet (by decide) [64, 6, 0, 0] (bytes "1234567")
     (Or.inl (by decide)),
   C20_encode_atomic hexCharSet (by decide) [7, 7] (bytes "FG") (Or.inr (by decide)),
   C20_encode_atomic hexCharSet (by decide) [64, 6, 0, 0] (bytes "FG")
     (Or.inr (by decide))⟩

/-- C21, the code at the failing input. Under the default charset
`FromString("")` and `FromUint32(0)` both return, with a nil error, the empty
Numericode, whose length 0 is at most `MaxChars() = 6`; on it `ToUint32` passes
the length guard and panics on the read of `n[0]`, and so does `Value`. On the
non-empty in-range codes of the tests `ToUint32` returns with a nil error. -/
theorem C21_toUint32_empty_panics :
    nctype.Reachable nctype.DefaultCharSet
    ∧ nctype.FromString nctype.DefaultCharSet [] = .ok []
    ∧ nctype.FromUint32 nctype.DefaultCharSet 0 = some (.ok [])
    ∧ ((([] : nctype.Numericode).length : Int) ≤ nctype.MaxChars nctype.DefaultCharSet)
    ∧ nctype.ToUint32 nctype.DefaultCharSet [] = none
    ∧ nctype.Value nctype.DefaultCharSet [] = none
    ∧ nctype.ToUint32 nctype.DefaultCharSet [1, 1] = some (.ok 41)
    ∧ nctype.ToUint32 nctype.DefaultCharSet [255, 255, 255, 255, 255, 255]
        = some (.ok 1011734679) :=
  ⟨nctype.Reachable.initial, by decide, by decide, by decide, by decide, by decide,
   by decide, by decide⟩

end Numericode
